import Mathlib

/-!
Shallow embedding of graphx.py (Hash, Graph, BFS) and verification of the
specification claims about it.

Conventions of the embedding:
- Python values passed as node keys are modelled by PyKey: an integer, a tuple
  of integers, or anything else (PyKey.other).
- Python exceptions are modelled by PyErr.  Every stateful operation returns a
  pair of a result (Except PyErr value) and the final state of the mutated
  object, since a Python exception propagates while leaving all mutations that
  already happened in place.
- The Python dict hash_table is modelled as an insertion-ordered association
  list, so that len(hash_table) is its length.
- The preallocated adjacency array of length 5000000 (self.N) is modelled by a
  total function Nat -> List (Nat x Int) together with an explicit bound check
  on every indexing operation, mirroring the IndexError a Python list raises.
- The while loop of BFS._run_internal is modelled with explicit fuel; the fuel
  chosen for BFS.run is proved sufficient, so the fuelExhausted branch is
  unreachable from the API.
-/

set_option maxHeartbeats 1000000
set_option maxRecDepth 8192

/-- A Python value used as a node key: an int, a tuple of ints, or any other
value (only its non-int, non-tuple nature matters to the code). -/
inductive PyKey where
  | int : Int → PyKey
  | tup : List Int → PyKey
  | other : PyKey
deriving DecidableEq

/-- Python exceptions raised by graphx.py, plus a marker for fuel exhaustion
of the modelled while loop (proved unreachable from the API). -/
inductive PyErr where
  | valueError : PyErr
  | typeError : PyErr
  | indexError : PyErr
  | fuelExhausted : PyErr
deriving DecidableEq

/-- Key normalization of Hash.hash (graphx.py lines 13-23): an int x becomes
(x,0,0), a 2-tuple (a,b) becomes (a,b,0), a 3-tuple stays, anything else
raises. -/
def normalizeKey : PyKey → Except PyErr (Int × Int × Int)
  | .int x => .ok (x, 0, 0)
  | .tup [a, b] => .ok (a, b, 0)
  | .tup [a, b, c] => .ok (a, b, c)
  | .tup _ => .error .valueError
  | .other => .error .typeError

/-- Lookup in the insertion-ordered association list modelling the dict. -/
def findId : List ((Int × Int × Int) × Nat) → (Int × Int × Int) → Option Nat
  | [], _ => none
  | (k, i) :: rest, t => if k = t then some i else findId rest t

/-- The Hash class: a dict from normalized triples to dense ids. -/
structure Hash where
  hash_table : List ((Int × Int × Int) × Nat)
deriving DecidableEq

/-- Number of entries of the dict (len(self.hash_table)). -/
def Hash.size (h : Hash) : Nat := h.hash_table.length

/-- Hash.hash (graphx.py lines 11-28): normalize the key, insert it with id
len(hash_table) if absent, and return its id.  On a normalization error the
table is unchanged. -/
def Hash.hash (h : Hash) (x : PyKey) : Except PyErr Nat × Hash :=
  match normalizeKey x with
  | .error e => (.error e, h)
  | .ok key =>
    match findId h.hash_table key with
    | some i => (.ok i, h)
    | none => (.ok h.hash_table.length, ⟨h.hash_table ++ [(key, h.hash_table.length)]⟩)

/-- The hard-coded size self.N = 5000000 of the preallocated adjacency array
(graphx.py line 44). -/
def bigN : Nat := 5000000

/-- The Graph class (graphx.py lines 31-82). -/
structure Graph where
  n : Nat
  is_directed : Bool
  adj : Nat → List (Nat × Int)
  h : Hash

/-- Graph.__init__ (graphx.py lines 34-46): store n and is_directed, allocate
5000000 empty adjacency lists, create a fresh Hash. -/
def Graph.new (n : Nat) (is_directed : Bool) : Graph :=
  ⟨n, is_directed, fun _ => [], ⟨[]⟩⟩

/-- Replace the adjacency array of a graph (a mutation of self.adj). -/
def Graph.setAdj (g : Graph) (a : Nat → List (Nat × Int)) : Graph :=
  ⟨g.n, g.is_directed, a, g.h⟩

/-- Replace the Hash of a graph (a mutation of self.h). -/
def Graph.setH (g : Graph) (h' : Hash) : Graph :=
  ⟨g.n, g.is_directed, g.adj, h'⟩

/-- Pointwise update of a function modelling an array cell assignment. -/
def upd {α : Type} (f : Nat → α) (i : Nat) (a : α) : Nat → α :=
  fun j => if j = i then a else f j

/-- Graph._add_edge_weighted_undirected (graphx.py lines 80-82):
self.adj[u].append((v, weight)), with the IndexError of indexing the
length-5000000 list at u >= 5000000. -/
def Graph.add_edge_weighted_undirected (g : Graph) (u v : Nat) (weight : Int) :
    Except PyErr Unit × Graph :=
  if u < bigN then (.ok (), g.setAdj (upd g.adj u (g.adj u ++ [(v, weight)])))
  else (.error .indexError, g)

/-- Graph._add_edge_internal (graphx.py lines 74-78): one append, and a second
mirrored append when the graph is undirected. -/
def Graph.add_edge_internal (g : Graph) (u v : Nat) (weight : Int) :
    Except PyErr Unit × Graph :=
  match g.add_edge_weighted_undirected u v weight with
  | (.error e, g1) => (.error e, g1)
  | (.ok _, g1) =>
    if g1.is_directed then (.ok (), g1)
    else g1.add_edge_weighted_undirected v u weight

/-- Graph.add_edge (graphx.py lines 59-72): resolve both endpoints through the
shared Hash (mutating it), then insert. -/
def Graph.add_edge (g : Graph) (u v : PyKey) (weight : Int) :
    Except PyErr Unit × Graph :=
  match g.h.hash u with
  | (.error e, h1) => (.error e, g.setH h1)
  | (.ok uh, h1) =>
    match h1.hash v with
    | (.error e, h2) => (.error e, g.setH h2)
    | (.ok vh, h2) => (g.setH h2).add_edge_internal uh vh weight

/-- Graph.hash with a single argument (graphx.py lines 48-57, the v = k = None
branch): resolve one key through the shared Hash. -/
def Graph.hashKey (g : Graph) (u : PyKey) : Except PyErr Nat × Graph :=
  match g.h.hash u with
  | (r, h1) => (r, g.setH h1)

/-- The BFS class (graphx.py lines 85-161): a graph reference plus the two
length-5000000 arrays min_dist_from_source and visited. -/
structure BFS where
  g : Graph
  min_dist_from_source : Nat → Int
  visited : Nat → Bool

/-- BFS.__init__ (graphx.py lines 88-98): store the graph and clear. -/
def BFS.new (g : Graph) : BFS := ⟨g, fun _ => -1, fun _ => false⟩

/-- BFS.clear (graphx.py lines 100-103): reset both arrays. -/
def BFS.clear (b : BFS) : BFS := ⟨b.g, fun _ => -1, fun _ => false⟩

/-- Replace the Hash inside the graph of a BFS (a mutation of self.g.h). -/
def BFS.setH (b : BFS) (h' : Hash) : BFS :=
  ⟨b.g.setH h', b.min_dist_from_source, b.visited⟩

/-- Replace the two arrays of a BFS. -/
def BFS.setArrays (b : BFS) (d : Nat → Int) (v : Nat → Bool) : BFS :=
  ⟨b.g, d, v⟩

/-- The inner for loop of BFS._run_internal (graphx.py lines 149-153): walk the
adjacency entries of cur; each unvisited target is marked visited, given
distance dist[cur] + 1, and appended to the queue.  Reads and writes of the
two arrays are bound-checked exactly where Python indexes them. -/
def visitNeighbors : (Nat → Int) → (Nat → Bool) → Nat → List (Nat × Int) → List Nat →
    Except PyErr Unit × (Nat → Int) × (Nat → Bool) × List Nat
  | dist, vis, _cur, [], q => (.ok (), dist, vis, q)
  | dist, vis, cur, (a, _w) :: rest, q =>
    if a < bigN then
      if vis a then visitNeighbors dist vis cur rest q
      else
        if cur < bigN then
          visitNeighbors (upd dist a (dist cur + 1)) (upd vis a true) cur rest (q ++ [a])
        else (.error .indexError, dist, upd vis a true, q)
    else (.error .indexError, dist, vis, q)

/-- The while loop of BFS._run_internal (graphx.py lines 147-153), with
explicit fuel.  Popping cur indexes self.g.adj[cur], which is bound-checked. -/
def runLoop (g : Graph) : Nat → List Nat → (Nat → Int) → (Nat → Bool) →
    Except PyErr Unit × (Nat → Int) × (Nat → Bool)
  | _, [], dist, vis => (.ok (), dist, vis)
  | 0, _ :: _, dist, vis => (.error .fuelExhausted, dist, vis)
  | fuel + 1, cur :: q, dist, vis =>
    if cur < bigN then
      match visitNeighbors dist vis cur (g.adj cur) q with
      | (.error e, dist1, vis1, _) => (.error e, dist1, vis1)
      | (.ok _, dist1, vis1, q1) => runLoop g fuel q1 dist1 vis1
    else (.error .indexError, dist, vis)

/-- Fuel sufficient for any run of the while loop (proved sufficient below). -/
def runFuel : Nat := 2 * bigN + 2

/-- BFS._run_internal (graphx.py lines 141-153): seed the queue with the
source, mark it visited at distance 0, then loop. -/
def BFS.run_internal (b : BFS) (source : Nat) : Except PyErr Unit × BFS :=
  if source < bigN then
    match runLoop b.g runFuel [source] (upd b.min_dist_from_source source 0)
        (upd b.visited source true) with
    | (r, dist2, vis2) => (r, b.setArrays dist2 vis2)
  else (.error .indexError, b)

/-- BFS.run (graphx.py lines 105-113): resolve the source key through the
shared Hash, then run the internal BFS. -/
def BFS.run (b : BFS) (source : PyKey) : Except PyErr Unit × BFS :=
  match b.g.h.hash source with
  | (.error e, h1) => (.error e, b.setH h1)
  | (.ok s, h1) => (b.setH h1).run_internal s

/-- BFS.min_dist (graphx.py lines 115-126, 155-157): resolve the target key,
then read min_dist_from_source at its id. -/
def BFS.min_dist (b : BFS) (target : PyKey) : Except PyErr Int × BFS :=
  match b.g.h.hash target with
  | (.error e, h1) => (.error e, b.setH h1)
  | (.ok t, h1) =>
    if t < bigN then (.ok (b.min_dist_from_source t), b.setH h1)
    else (.error .indexError, b.setH h1)

/-- BFS.is_visited (graphx.py lines 128-139, 159-161): resolve the target key,
then read visited at its id. -/
def BFS.is_visited (b : BFS) (target : PyKey) : Except PyErr Bool × BFS :=
  match b.g.h.hash target with
  | (.error e, h1) => (.error e, b.setH h1)
  | (.ok t, h1) =>
    if t < bigN then (.ok (b.visited t), b.setH h1)
    else (.error .indexError, b.setH h1)

/-- A directed walk of the given length from s, following adjacency entries
(the specification notion of a path by edge traversals). -/
inductive HasPath (adj : Nat → List (Nat × Int)) (s : Nat) : Nat → Nat → Prop where
  | refl : HasPath adj s s 0
  | tail {u v : Nat} {k : Nat} (hp : HasPath adj s u k) (w : Int) (hw : (v, w) ∈ adj u) :
      HasPath adj s v (k + 1)

/-- Reachability by directed edges. -/
def Reachable (adj : Nat → List (Nat × Int)) (s v : Nat) : Prop := ∃ k, HasPath adj s v k

/-- Well-formedness of a Hash: every id stored in the table is below the table
length.  This holds for every table the API can build. -/
def Hash.WF (h : Hash) : Prop :=
  ∀ t i, findId h.hash_table t = some i → i < h.hash_table.length

/-- Well-formedness of a Graph: the Hash is well-formed and every adjacency
target is an id the Hash has handed out. -/
def Graph.WF (g : Graph) : Prop :=
  g.h.WF ∧ ∀ u p, p ∈ g.adj u → p.1 < g.h.size

instance instDecEqExcept {ε α : Type} [DecidableEq ε] [DecidableEq α] :
    DecidableEq (Except ε α)
  | .error a, .error b =>
    if h : a = b then .isTrue (by rw [h]) else .isFalse (by simp [h])
  | .error _, .ok _ => .isFalse (by simp)
  | .ok _, .error _ => .isFalse (by simp)
  | .ok a, .ok b =>
    if h : a = b then .isTrue (by rw [h]) else .isFalse (by simp [h])

/-! Basic lemmas about findId and Hash.hash. -/

theorem findId_append_some {l1 l2 : List ((Int × Int × Int) × Nat)}
    {t : Int × Int × Int} {i : Nat} (hf : findId l1 t = some i) :
    findId (l1 ++ l2) t = some i := by
  induction l1 with
  | nil => simp [findId] at hf
  | cons p rest ih =>
    obtain ⟨k, j⟩ := p
    simp only [List.cons_append, findId] at hf ⊢
    by_cases hk : k = t
    · simpa [hk] using hf
    · simp only [hk, if_false] at hf ⊢
      exact ih hf

theorem findId_append_none {l1 l2 : List ((Int × Int × Int) × Nat)}
    {t : Int × Int × Int} (hf : findId l1 t = none) :
    findId (l1 ++ l2) t = findId l2 t := by
  induction l1 with
  | nil => simp [findId]
  | cons p rest ih =>
    obtain ⟨k, j⟩ := p
    simp only [List.cons_append, findId] at hf ⊢
    by_cases hk : k = t
    · simp [hk] at hf
    · simp only [hk, if_false] at hf ⊢
      exact ih hf

theorem findId_singleton {t t1 : Int × Int × Int} {j : Nat} :
    findId [(t, j)] t1 = if t = t1 then some j else none := by
  by_cases h : t = t1 <;> simp [findId, h]

theorem findId_append_cases {l1 : List ((Int × Int × Int) × Nat)}
    {t t1 : Int × Int × Int} {j i : Nat}
    (h : findId (l1 ++ [(t, j)]) t1 = some i) :
    findId l1 t1 = some i ∨ (t = t1 ∧ i = j) := by
  cases hf : findId l1 t1 with
  | some i2 =>
    rw [findId_append_some hf] at h
    exact Or.inl h
  | none =>
    rw [findId_append_none hf, findId_singleton] at h
    by_cases ht : t = t1
    · simp only [ht, if_true] at h
      exact Or.inr ⟨ht, (Option.some.inj h).symm⟩
    · simp [ht] at h

/-- Case analysis of a single Hash.hash call: either the key is invalid and
nothing changes, or it is already present and nothing changes, or it is fresh
and gets appended with id equal to the current size. -/
theorem Hash.hash_cases (h : Hash) (k : PyKey) :
    (∃ e, normalizeKey k = .error e ∧ h.hash k = (.error e, h)) ∨
    (∃ t i, normalizeKey k = .ok t ∧ findId h.hash_table t = some i ∧
      h.hash k = (.ok i, h)) ∨
    (∃ t, normalizeKey k = .ok t ∧ findId h.hash_table t = none ∧
      h.hash k = (.ok h.size, ⟨h.hash_table ++ [(t, h.size)]⟩)) := by
  cases hn : normalizeKey k with
  | error e =>
    refine Or.inl ⟨e, rfl, ?_⟩
    simp only [Hash.hash, hn]
  | ok t =>
    cases hf : findId h.hash_table t with
    | some i =>
      refine Or.inr (Or.inl ⟨t, i, rfl, hf, ?_⟩)
      simp only [Hash.hash, hn, hf]
    | none =>
      refine Or.inr (Or.inr ⟨t, rfl, hf, ?_⟩)
      simp only [Hash.hash, hn, hf, Hash.size]

theorem Hash.hash_table_shape (h : Hash) (k : PyKey) :
    (h.hash k).2.hash_table = h.hash_table ∨
      ∃ t, normalizeKey k = .ok t ∧ findId h.hash_table t = none ∧
        (h.hash k).2.hash_table = h.hash_table ++ [(t, h.size)] := by
  rcases Hash.hash_cases h k with ⟨e, _, he⟩ | ⟨t, i, _, _, he⟩ | ⟨t, hn, hf, he⟩
  · rw [he]; exact Or.inl rfl
  · rw [he]; exact Or.inl rfl
  · rw [he]; exact Or.inr ⟨t, hn, hf, rfl⟩

theorem Hash.size_le_hash (h : Hash) (k : PyKey) : h.size ≤ (h.hash k).2.size := by
  rcases Hash.hash_table_shape h k with hs | ⟨t, _, _, hs⟩ <;>
    simp [Hash.size, hs]

theorem Hash.hash_size_le (h : Hash) (k : PyKey) : (h.hash k).2.size ≤ h.size + 1 := by
  rcases Hash.hash_table_shape h k with hs | ⟨t, _, _, hs⟩ <;>
    simp [Hash.size, hs]

/-- Every id returned by Hash.hash on a well-formed table is below the
resulting table size. -/
theorem Hash.hash_id_lt (h : Hash) (k : PyKey) (i : Nat) (hwf : h.WF)
    (hok : (h.hash k).1 = .ok i) : i < (h.hash k).2.size := by
  rcases Hash.hash_cases h k with ⟨e, _, he⟩ | ⟨t, j, _, hf, he⟩ | ⟨t, _, hf, he⟩ <;>
    rw [he] at hok ⊢
  · cases hok
  · obtain rfl : j = i := Except.ok.inj hok
    exact hwf _ _ hf
  · obtain rfl : h.size = i := Except.ok.inj hok
    simp [Hash.size]

/-- Well-formedness of the table is preserved by Hash.hash. -/
theorem Hash.hash_WF (h : Hash) (k : PyKey) (hwf : h.WF) : (h.hash k).2.WF := by
  rcases Hash.hash_table_shape h k with hs | ⟨t, _, _, hs⟩
  · intro t1 i hf
    rw [hs] at hf ⊢
    exact hwf t1 i hf
  · intro t1 i hf
    rw [hs] at hf ⊢
    rcases findId_append_cases hf with hf1 | ⟨ht, hij⟩
    · have := hwf t1 i hf1
      simp only [List.length_append, List.length_cons, List.length_nil]
      omega
    · subst hij
      simp [Hash.size, List.length_append]

/-- Once a triple is bound in the table, any Hash.hash call preserves that
binding. -/
theorem Hash.hash_preserves (h : Hash) (k : PyKey) (t : Int × Int × Int) (i : Nat)
    (hf : findId h.hash_table t = some i) :
    findId (h.hash k).2.hash_table t = some i := by
  rcases Hash.hash_table_shape h k with hs | ⟨t1, _, _, hs⟩
  · rw [hs]; exact hf
  · rw [hs]; exact findId_append_some hf

/-- Resolving a key that succeeded binds its normalized triple to the returned
id in the resulting table. -/
theorem Hash.hash_binds (h : Hash) (k : PyKey) (t : Int × Int × Int) (i : Nat)
    (hn : normalizeKey k = .ok t) (hok : (h.hash k).1 = .ok i) :
    findId (h.hash k).2.hash_table t = some i := by
  rcases Hash.hash_cases h k with ⟨e, hn1, he⟩ | ⟨t1, j, hn1, hf, he⟩ | ⟨t1, hn1, hf, he⟩
  · rw [hn] at hn1; cases hn1
  · obtain rfl : t1 = t := Except.ok.inj (hn1.symm.trans hn)
    rw [he] at hok ⊢
    obtain rfl : j = i := Except.ok.inj hok
    exact hf
  · have ht : t1 = t := Except.ok.inj (hn1.symm.trans hn)
    rw [he] at hok ⊢
    have hsz : h.size = i := Except.ok.inj hok
    show findId (h.hash_table ++ [(t1, h.size)]) t = some i
    rw [← ht, findId_append_none hf, findId_singleton, if_pos rfl]
    exact congrArg some hsz

/-- A second resolution of the same key returns the same result and leaves the
table unchanged. -/
theorem Hash.hash_idem (h : Hash) (k : PyKey) : (h.hash k).2.hash k = h.hash k := by
  rcases Hash.hash_cases h k with ⟨e, hn, he⟩ | ⟨t, i, hn, hf, he⟩ | ⟨t, hn, hf, he⟩
  · rw [he]
    exact he
  · rw [he]
    exact he
  · rw [he]
    show Hash.hash ⟨h.hash_table ++ [(t, h.size)]⟩ k =
      (.ok h.size, ⟨h.hash_table ++ [(t, h.size)]⟩)
    have hf1 : findId (h.hash_table ++ [(t, h.size)]) t = some h.size := by
      rw [findId_append_none hf, findId_singleton, if_pos rfl]
    simp only [Hash.hash, hn, hf1]

/-- C3: resolving any NodeKey twice in succession through the same
IdentifierIndex yields the same dense id (and the same table) both times, and
against a fresh index the calls resolve Scalar 5, Pair (5,0) and Triple
(5,0,0) all to the same id 0, the first of them yielding id 0. -/
theorem C3_resolution_idempotent_and_canonical :
    (∀ (h : Hash) (k : PyKey), (h.hash k).2.hash k = h.hash k) ∧
    (Hash.hash ⟨[]⟩ (.int 5)).1 = .ok 0 ∧
    ((Hash.hash ⟨[]⟩ (.int 5)).2.hash (.tup [5, 0])).1 = .ok 0 ∧
    (((Hash.hash ⟨[]⟩ (.int 5)).2.hash (.tup [5, 0])).2.hash (.tup [5, 0, 0])).1 = .ok 0 ∧
    (Hash.hash ⟨[]⟩ (.tup [5, 0])).1 = .ok 0 ∧
    (Hash.hash ⟨[]⟩ (.tup [5, 0, 0])).1 = .ok 0 :=
  ⟨Hash.hash_idem, by decide, by decide, by decide, by decide, by decide⟩

/-- C4: the IdentifierIndex mapping is append-only: existing bindings are
preserved by every resolve, a resolve of an unseen normalized triple returns
the id equal to the current mapping size and appends exactly that binding, and
every resolve either leaves the table unchanged or appends one fresh binding
whose id is the previous size. -/
theorem C4_append_only :
    (∀ (h : Hash) (k : PyKey) (t : Int × Int × Int) (i : Nat),
        findId h.hash_table t = some i → findId (h.hash k).2.hash_table t = some i) ∧
    (∀ (h : Hash) (k : PyKey) (t : Int × Int × Int),
        normalizeKey k = .ok t → findId h.hash_table t = none →
          h.hash k = (.ok h.size, ⟨h.hash_table ++ [(t, h.size)]⟩)) ∧
    (∀ (h : Hash) (k : PyKey),
        (h.hash k).2.hash_table = h.hash_table ∨
          ∃ t, normalizeKey k = .ok t ∧ findId h.hash_table t = none ∧
            (h.hash k).2.hash_table = h.hash_table ++ [(t, h.size)]) := by
  refine ⟨fun h k t i hf => Hash.hash_preserves h k t i hf, ?_,
    fun h k => Hash.hash_table_shape h k⟩
  intro h k t hn hf
  rcases Hash.hash_cases h k with ⟨e, hn1, he⟩ | ⟨t1, i, hn1, hf1, he⟩ | ⟨t1, hn1, hf1, he⟩
  · rw [hn] at hn1
    cases hn1
  · have ht : t1 = t := Except.ok.inj (hn1.symm.trans hn)
    rw [ht] at hf1
    rw [hf] at hf1
    cases hf1
  · have ht : t1 = t := Except.ok.inj (hn1.symm.trans hn)
    rw [← ht]
    exact he

theorem C4_witness :
    Hash.hash ⟨[]⟩ (.int 3) =
      (.ok (Hash.size ⟨[]⟩), ⟨(⟨[]⟩ : Hash).hash_table ++ [((3, 0, 0), Hash.size ⟨[]⟩)]⟩) :=
  C4_append_only.2.1 ⟨[]⟩ (.int 3) (3, 0, 0) rfl rfl

/-- C9: a key whose composite form falls outside scalar/pair/triple is
rejected with an error by every resolving operation (resolve itself, addEdge
in either endpoint position, run, min_dist, is_visited), and the
IdentifierIndex gains no entry for it: the table is left exactly as it was
(or, for addEdge whose first endpoint already resolved, exactly as the first
resolution left it). -/
theorem C9_invalid_key_rejected (k : PyKey) (e : PyErr)
    (hk : normalizeKey k = .error e) :
    (∀ h : Hash, h.hash k = (.error e, h)) ∧
    (∀ (g : Graph) (v : PyKey) (w : Int), g.add_edge k v w = (.error e, g)) ∧
    (∀ (g : Graph) (u : PyKey) (w : Int) (uh : Nat) (h1 : Hash),
        g.h.hash u = (.ok uh, h1) → g.add_edge u k w = (.error e, g.setH h1)) ∧
    (∀ b : BFS, b.run k = (.error e, b)) ∧
    (∀ b : BFS, b.min_dist k = (.error e, b)) ∧
    (∀ b : BFS, b.is_visited k = (.error e, b)) := by
  have hh : ∀ h : Hash, h.hash k = (.error e, h) := by
    intro h
    simp only [Hash.hash, hk]
  refine ⟨hh, ?_, ?_, ?_, ?_, ?_⟩
  · intro g v w
    simp only [Graph.add_edge, hh g.h]
    rfl
  · intro g u w uh h1 hu
    simp only [Graph.add_edge, hu, hh h1]
  · intro b
    simp only [BFS.run, hh b.g.h]
    rfl
  · intro b
    simp only [BFS.min_dist, hh b.g.h]
    rfl
  · intro b
    simp only [BFS.is_visited, hh b.g.h]
    rfl

theorem C9_witness :
    Hash.hash ⟨[]⟩ (.tup [1, 2, 3, 4]) = (.error .valueError, (⟨[]⟩ : Hash)) ∧
    (Graph.new 5 true).add_edge (.tup [1, 2, 3, 4]) (.int 0) 0 =
      (.error .valueError, Graph.new 5 true) ∧
    (BFS.new (Graph.new 5 true)).run (.tup []) = (.error .valueError, BFS.new (Graph.new 5 true)) ∧
    (BFS.new (Graph.new 5 true)).min_dist .other = (.error .typeError, BFS.new (Graph.new 5 true)) := by
  refine ⟨(C9_invalid_key_rejected (.tup [1, 2, 3, 4]) .valueError rfl).1 ⟨[]⟩,
    (C9_invalid_key_rejected (.tup [1, 2, 3, 4]) .valueError rfl).2.1 (Graph.new 5 true) (.int 0) 0,
    (C9_invalid_key_rejected (.tup []) .valueError rfl).2.2.2.1 (BFS.new (Graph.new 5 true)),
    (C9_invalid_key_rejected .other .typeError rfl).2.2.2.2.1 (BFS.new (Graph.new 5 true))⟩

/-! Lemmas about array updates and the outcome of Graph.add_edge. -/

theorem upd_same {α : Type} (f : Nat → α) (i : Nat) (a : α) : upd f i a i = a := by
  simp [upd]

theorem upd_other {α : Type} (f : Nat → α) (i j : Nat) (a : α) (h : j ≠ i) :
    upd f i a j = f j := by
  simp [upd, h]

theorem upd_eval {α : Type} (f : Nat → α) (i j : Nat) (a : α) :
    upd f i a j = if j = i then a else f j := rfl

theorem mem_upd_append {adj : Nat → List (Nat × Int)} {u j : Nat}
    {xs : List (Nat × Int)} {p : Nat × Int}
    (hp : p ∈ upd adj u (adj u ++ xs) j) : p ∈ adj j ∨ p ∈ xs := by
  rw [upd_eval] at hp
  by_cases hj : j = u
  · rw [if_pos hj] at hp
    rcases List.mem_append.mp hp with h | h
    · exact Or.inl (hj ▸ h)
    · exact Or.inr h
  · rw [if_neg hj] at hp
    exact Or.inl hp

/-- Outcome of add_edge when both keys resolve, the first id is in bounds and
the graph is directed: exactly one append, under the first id. -/
theorem Graph.add_edge_directed_spec (g : Graph) (u v : PyKey) (w : Int)
    (uh vh : Nat) (h1 h2 : Hash)
    (hu : g.h.hash u = (.ok uh, h1)) (hv : h1.hash v = (.ok vh, h2))
    (huh : uh < bigN) (hd : g.is_directed = true) :
    g.add_edge u v w =
      (.ok (), ⟨g.n, g.is_directed, upd g.adj uh (g.adj uh ++ [(vh, w)]), h2⟩) := by
  simp only [Graph.add_edge, hu, hv, Graph.add_edge_internal,
    Graph.add_edge_weighted_undirected, Graph.setH, Graph.setAdj, huh, if_true, hd]

/-- Outcome of add_edge when both keys resolve, both ids are in bounds and the
graph is undirected: two appends. -/
theorem Graph.add_edge_undirected_spec (g : Graph) (u v : PyKey) (w : Int)
    (uh vh : Nat) (h1 h2 : Hash)
    (hu : g.h.hash u = (.ok uh, h1)) (hv : h1.hash v = (.ok vh, h2))
    (huh : uh < bigN) (hvh : vh < bigN) (hd : g.is_directed = false) :
    g.add_edge u v w =
      (.ok (), ⟨g.n, g.is_directed,
        upd (upd g.adj uh (g.adj uh ++ [(vh, w)])) vh
          ((upd g.adj uh (g.adj uh ++ [(vh, w)])) vh ++ [(uh, w)]), h2⟩) := by
  simp only [Graph.add_edge, hu, hv, Graph.add_edge_internal,
    Graph.add_edge_weighted_undirected, Graph.setH, Graph.setAdj, huh, hvh, if_true, hd,
    Bool.false_eq_true, if_false]

/-- Outcome of add_edge when both keys resolve but the first id is out of the
array bound: an IndexError with no adjacency change. -/
theorem Graph.add_edge_firstOOB_spec (g : Graph) (u v : PyKey) (w : Int)
    (uh vh : Nat) (h1 h2 : Hash)
    (hu : g.h.hash u = (.ok uh, h1)) (hv : h1.hash v = (.ok vh, h2))
    (huh : ¬ uh < bigN) :
    g.add_edge u v w = (.error .indexError, g.setH h2) := by
  simp only [Graph.add_edge, hu, hv, Graph.add_edge_internal,
    Graph.add_edge_weighted_undirected, Graph.setH, Graph.setAdj, huh, if_false]

/-- Outcome of add_edge on an undirected graph when the first id is in bounds
but the second is not: the first append happens, then an IndexError. -/
theorem Graph.add_edge_secondOOB_spec (g : Graph) (u v : PyKey) (w : Int)
    (uh vh : Nat) (h1 h2 : Hash)
    (hu : g.h.hash u = (.ok uh, h1)) (hv : h1.hash v = (.ok vh, h2))
    (huh : uh < bigN) (hvh : ¬ vh < bigN) (hd : g.is_directed = false) :
    g.add_edge u v w =
      (.error .indexError, ⟨g.n, g.is_directed, upd g.adj uh (g.adj uh ++ [(vh, w)]), h2⟩) := by
  simp only [Graph.add_edge, hu, hv, Graph.add_edge_internal,
    Graph.add_edge_weighted_undirected, Graph.setH, Graph.setAdj, huh, hvh, if_true, if_false,
    hd, Bool.false_eq_true]

/-- Well-formedness of the initial graph. -/
theorem Graph.new_WF (n : Nat) (d : Bool) : (Graph.new n d).WF := by
  constructor
  · intro t i hf
    simp [Graph.new, findId] at hf
  · intro u p hp
    simp [Graph.new] at hp

/-- Resolving a key through the graph (without touching edges) preserves
well-formedness. -/
theorem Graph.setH_hash_WF (g : Graph) (k : PyKey) (hwf : g.WF) :
    (g.setH (g.h.hash k).2).WF :=
  ⟨Hash.hash_WF g.h k hwf.1,
   fun u p hp => lt_of_lt_of_le (hwf.2 u p hp) (Hash.size_le_hash g.h k)⟩

/-- Graph.add_edge preserves well-formedness, whatever its outcome. -/
theorem Graph.add_edge_WF (g : Graph) (u v : PyKey) (w : Int) (hwf : g.WF) :
    (g.add_edge u v w).2.WF := by
  obtain ⟨hh0, hadj0⟩ := hwf
  rcases hu : g.h.hash u with ⟨ru, h1⟩
  have hh1 : h1.WF := by
    have := Hash.hash_WF g.h u hh0
    rw [hu] at this
    exact this
  have hs01 : g.h.size ≤ h1.size := by
    have := Hash.size_le_hash g.h u
    rw [hu] at this
    exact this
  cases ru with
  | error e =>
    have he : g.add_edge u v w = (.error e, g.setH h1) := by
      simp only [Graph.add_edge, hu]
    rw [he]
    exact ⟨hh1, fun j p hp => lt_of_lt_of_le (hadj0 j p hp) hs01⟩
  | ok uh =>
    rcases hv : h1.hash v with ⟨rv, h2⟩
    have hh2 : h2.WF := by
      have := Hash.hash_WF h1 v hh1
      rw [hv] at this
      exact this
    have hs12 : h1.size ≤ h2.size := by
      have := Hash.size_le_hash h1 v
      rw [hv] at this
      exact this
    have huh_lt : uh < h1.size := by
      have := Hash.hash_id_lt g.h u uh hh0 (by rw [hu])
      rw [hu] at this
      exact this
    have hold : ∀ j p, p ∈ g.adj j → p.1 < h2.size :=
      fun j p hp => lt_of_lt_of_le (hadj0 j p hp) (le_trans hs01 hs12)
    cases rv with
    | error e =>
      have he : g.add_edge u v w = (.error e, g.setH h2) := by
        simp only [Graph.add_edge, hu, hv]
      rw [he]
      exact ⟨hh2, hold⟩
    | ok vh =>
      have hvh_lt : vh < h2.size := by
        have := Hash.hash_id_lt h1 v vh hh1 (by rw [hv])
        rw [hv] at this
        exact this
      by_cases huh : uh < bigN
      · cases hdd : g.is_directed with
        | true =>
          rw [Graph.add_edge_directed_spec g u v w uh vh h1 h2 hu hv huh hdd]
          refine ⟨hh2, ?_⟩
          intro j p hp
          rcases mem_upd_append hp with h | h
          · exact hold j p h
          · rcases List.mem_singleton.mp h with rfl
            exact hvh_lt
        | false =>
          by_cases hvh : vh < bigN
          · rw [Graph.add_edge_undirected_spec g u v w uh vh h1 h2 hu hv huh hvh hdd]
            refine ⟨hh2, ?_⟩
            intro j p hp
            rcases mem_upd_append hp with h | h
            · rcases mem_upd_append h with h3 | h3
              · exact hold j p h3
              · rcases List.mem_singleton.mp h3 with rfl
                exact hvh_lt
            · rcases List.mem_singleton.mp h with rfl
              exact lt_of_lt_of_le huh_lt hs12
          · rw [Graph.add_edge_secondOOB_spec g u v w uh vh h1 h2 hu hv huh hvh hdd]
            refine ⟨hh2, ?_⟩
            intro j p hp
            rcases mem_upd_append hp with h | h
            · exact hold j p h
            · rcases List.mem_singleton.mp h with rfl
              exact hvh_lt
      · rw [Graph.add_edge_firstOOB_spec g u v w uh vh h1 h2 hu hv huh]
        exact ⟨hh2, hold⟩

/-- C5 (amended): for in-bounds resolutions, addEdge on a directed store
appends exactly the entry (id v, w) under id u and leaves every other list
unchanged; on an undirected store with distinct ids it appends (id v, w) under
id u and (id u, w) under id v and leaves every other list unchanged; when the
two keys resolve to the same id the appends land on that single shared list
(one entry when directed, two when undirected). -/
theorem C5_add_edge_appends (g : Graph) (u v : PyKey) (w : Int)
    (uh vh : Nat) (h1 h2 : Hash)
    (hu : g.h.hash u = (.ok uh, h1)) (hv : h1.hash v = (.ok vh, h2))
    (huh : uh < bigN) (hvh : vh < bigN) :
    (g.is_directed = true →
      (g.add_edge u v w).1 = .ok () ∧
      (g.add_edge u v w).2.adj uh = g.adj uh ++ [(vh, w)] ∧
      ∀ j, j ≠ uh → (g.add_edge u v w).2.adj j = g.adj j) ∧
    (g.is_directed = false → uh ≠ vh →
      (g.add_edge u v w).1 = .ok () ∧
      (g.add_edge u v w).2.adj uh = g.adj uh ++ [(vh, w)] ∧
      (g.add_edge u v w).2.adj vh = g.adj vh ++ [(uh, w)] ∧
      ∀ j, j ≠ uh → j ≠ vh → (g.add_edge u v w).2.adj j = g.adj j) ∧
    (g.is_directed = false → uh = vh →
      (g.add_edge u v w).1 = .ok () ∧
      (g.add_edge u v w).2.adj uh = g.adj uh ++ [(vh, w), (uh, w)] ∧
      ∀ j, j ≠ uh → (g.add_edge u v w).2.adj j = g.adj j) := by
  refine ⟨?_, ?_, ?_⟩
  · intro hd
    rw [Graph.add_edge_directed_spec g u v w uh vh h1 h2 hu hv huh hd]
    refine ⟨rfl, upd_same _ _ _, ?_⟩
    intro j hj
    exact upd_other _ _ _ _ hj
  · intro hd hne
    rw [Graph.add_edge_undirected_spec g u v w uh vh h1 h2 hu hv huh hvh hd]
    refine ⟨rfl, ?_, ?_, ?_⟩
    · show upd (upd g.adj uh (g.adj uh ++ [(vh, w)])) vh _ uh = _
      rw [upd_other _ _ _ _ hne, upd_same]
    · show upd (upd g.adj uh (g.adj uh ++ [(vh, w)])) vh _ vh = _
      rw [upd_same, upd_other _ _ _ _ (Ne.symm hne)]
    · intro j hju hjv
      show upd (upd g.adj uh (g.adj uh ++ [(vh, w)])) vh _ j = _
      rw [upd_other _ _ _ _ hjv, upd_other _ _ _ _ hju]
  · intro hd heq
    rw [Graph.add_edge_undirected_spec g u v w uh vh h1 h2 hu hv huh hvh hd]
    refine ⟨rfl, ?_, ?_⟩
    · show upd (upd g.adj uh (g.adj uh ++ [(vh, w)])) vh _ uh = _
      rw [heq, upd_same, upd_same, List.append_assoc]
      rfl
    · intro j hj
      show upd (upd g.adj uh (g.adj uh ++ [(vh, w)])) vh _ j = _
      rw [upd_other _ _ _ _ (heq ▸ hj), upd_other _ _ _ _ hj]

/-- C5 counterexample: the distinct NodeKeys Scalar 0 and Pair (0,0) resolve
to the same dense id 0; on a directed store, addEdge(Scalar 0, Pair (0,0), 7)
does append an entry to the adjacency list of id(b) = 0, contradicting the
claim that no entry is appended to the adjacency list of id(b). -/
theorem C5_counterexample :
    ((Graph.new 5 true).hashKey (.int 0)).1 = .ok 0 ∧
    (((Graph.new 5 true).hashKey (.int 0)).2.hashKey (.tup [0, 0])).1 = .ok 0 ∧
    ((Graph.new 5 true).add_edge (.int 0) (.tup [0, 0]) 7).1 = .ok () ∧
    ((Graph.new 5 true).add_edge (.int 0) (.tup [0, 0]) 7).2.adj 0 ≠
      (Graph.new 5 true).adj 0 := by
  refine ⟨by decide, by decide, by decide, ?_⟩
  intro h
  have h0 : ((Graph.new 5 true).add_edge (.int 0) (.tup [0, 0]) 7).2.adj 0 = [(0, 7)] := by
    decide
  have h1 : (Graph.new 5 true).adj 0 = ([] : List (Nat × Int)) := by decide
  rw [h0, h1] at h
  cases h

theorem C5_witness :
    ((Graph.new 5 false).is_directed = true →
      ((Graph.new 5 false).add_edge (.int 0) (.int 1) 9).1 = .ok () ∧
      ((Graph.new 5 false).add_edge (.int 0) (.int 1) 9).2.adj 0 =
        (Graph.new 5 false).adj 0 ++ [(1, 9)] ∧
      ∀ j, j ≠ 0 → ((Graph.new 5 false).add_edge (.int 0) (.int 1) 9).2.adj j =
        (Graph.new 5 false).adj j) ∧
    ((Graph.new 5 false).is_directed = false → (0 : Nat) ≠ 1 →
      ((Graph.new 5 false).add_edge (.int 0) (.int 1) 9).1 = .ok () ∧
      ((Graph.new 5 false).add_edge (.int 0) (.int 1) 9).2.adj 0 =
        (Graph.new 5 false).adj 0 ++ [(1, 9)] ∧
      ((Graph.new 5 false).add_edge (.int 0) (.int 1) 9).2.adj 1 =
        (Graph.new 5 false).adj 1 ++ [(0, 9)] ∧
      ∀ j, j ≠ 0 → j ≠ 1 → ((Graph.new 5 false).add_edge (.int 0) (.int 1) 9).2.adj j =
        (Graph.new 5 false).adj j) ∧
    ((Graph.new 5 false).is_directed = false → (0 : Nat) = 1 →
      ((Graph.new 5 false).add_edge (.int 0) (.int 1) 9).1 = .ok () ∧
      ((Graph.new 5 false).add_edge (.int 0) (.int 1) 9).2.adj 0 =
        (Graph.new 5 false).adj 0 ++ [(1, 9), (0, 9)] ∧
      ∀ j, j ≠ 0 → ((Graph.new 5 false).add_edge (.int 0) (.int 1) 9).2.adj j =
        (Graph.new 5 false).adj j) :=
  C5_add_edge_appends (Graph.new 5 false) (.int 0) (.int 1) 9 0 1
    ⟨[((0, 0, 0), 0)]⟩ ⟨[((0, 0, 0), 0), ((1, 0, 0), 1)]⟩
    (by decide) (by decide) (by decide) (by decide)

/-- C2 counterexample: with nodeCapacity 1, addEdge calls that resolve ids at
or beyond the capacity raise nothing: both insertions return ok, and the
second one writes an adjacency entry at index 1, which is at the capacity. -/
theorem C2_counterexample :
    (((Graph.new 1 true).add_edge (.int 0) (.int 1) 0).2.hashKey (.int 1)).1 = .ok 1 ∧
    ((Graph.new 1 true).add_edge (.int 0) (.int 1) 0).1 = .ok () ∧
    (((Graph.new 1 true).add_edge (.int 0) (.int 1) 0).2.add_edge (.int 1) (.int 0) 0).1 =
      .ok () ∧
    (((Graph.new 1 true).add_edge (.int 0) (.int 1) 0).2.add_edge (.int 1) (.int 0) 0).2.adj 1 =
      [(0, 0)] := by
  decide

/-! Characterization of the BFS inner loop and the while loop. -/

/-- The inner neighbor loop, with the current node in bounds and visited and
all entry targets in bounds, succeeds and marks exactly the previously
unvisited targets, at distance dist cur + 1, appending them to the queue in
first-encounter order. -/
theorem visitNeighbors_spec (cur : Nat) (hcur : cur < bigN) :
    ∀ (entries : List (Nat × Int)) (dist : Nat → Int) (vis : Nat → Bool) (q : List Nat),
      (∀ p ∈ entries, (p : Nat × Int).1 < bigN) → vis cur = true →
      ∃ ns : List Nat,
        visitNeighbors dist vis cur entries q =
          (.ok (), fun j => if j ∈ ns then dist cur + 1 else dist j,
            fun j => if j ∈ ns then true else vis j, q ++ ns) ∧
        ns.Nodup ∧
        (∀ j ∈ ns, vis j = false ∧ j < bigN) ∧
        (∀ j ∈ ns, ∃ w, (j, w) ∈ entries) ∧
        (∀ p ∈ entries, (p : Nat × Int).1 ∈ ns ∨ vis p.1 = true) := by
  intro entries
  induction entries with
  | nil =>
    intro dist vis q hb hv
    refine ⟨[], ?_, List.nodup_nil, by simp, by simp, by simp⟩
    have e1 : (fun j => if j ∈ ([] : List Nat) then dist cur + 1 else dist j) = dist := by
      funext j
      simp
    have e2 : (fun j => if j ∈ ([] : List Nat) then true else vis j) = vis := by
      funext j
      simp
    rw [e1, e2, List.append_nil]
    rfl
  | cons p rest ih =>
    obtain ⟨a, w⟩ := p
    intro dist vis q hb hv
    have ha : a < bigN := hb (a, w) (List.mem_cons_self _ _)
    have hbrest : ∀ p ∈ rest, (p : Nat × Int).1 < bigN :=
      fun p hp => hb p (List.mem_cons_of_mem _ hp)
    by_cases hva : vis a = true
    · obtain ⟨ns, heq, hnd, hfresh, hedge, hcov⟩ := ih dist vis q hbrest hv
      refine ⟨ns, ?_, hnd, hfresh, ?_, ?_⟩
      · rw [show visitNeighbors dist vis cur ((a, w) :: rest) q =
            visitNeighbors dist vis cur rest q from by simp [visitNeighbors, ha, hva]]
        exact heq
      · intro j hj
        obtain ⟨w2, hw2⟩ := hedge j hj
        exact ⟨w2, List.mem_cons_of_mem _ hw2⟩
      · intro p hp
        rcases List.mem_cons.mp hp with rfl | hp2
        · exact Or.inr hva
        · exact hcov p hp2
    · have hva' : vis a = false := by
        cases hx : vis a
        · rfl
        · exact absurd hx hva
      have hcura : cur ≠ a := by
        intro hEq
        rw [hEq, hva'] at hv
        cases hv
      have hstep : visitNeighbors dist vis cur ((a, w) :: rest) q =
          visitNeighbors (upd dist a (dist cur + 1)) (upd vis a true) cur rest (q ++ [a]) := by
        simp [visitNeighbors, ha, hva', hcur]
      have hvcur1 : upd vis a true cur = true := by
        rw [upd_other _ _ _ _ hcura]
        exact hv
      obtain ⟨ns, heq, hnd, hfresh, hedge, hcov⟩ :=
        ih (upd dist a (dist cur + 1)) (upd vis a true) (q ++ [a]) hbrest hvcur1
      have hans : a ∉ ns := by
        intro hmem
        have := (hfresh a hmem).1
        rw [upd_same] at this
        cases this
      have hdc : upd dist a (dist cur + 1) cur = dist cur := upd_other _ _ _ _ hcura
      refine ⟨a :: ns, ?_, List.nodup_cons.mpr ⟨hans, hnd⟩, ?_, ?_, ?_⟩
      · rw [hstep, heq]
        have e1 : (fun j => if j ∈ ns then upd dist a (dist cur + 1) cur + 1
              else upd dist a (dist cur + 1) j) =
            (fun j => if j ∈ a :: ns then dist cur + 1 else dist j) := by
          funext j
          rw [hdc]
          by_cases hj : j ∈ ns
          · rw [if_pos hj, if_pos (List.mem_cons_of_mem _ hj)]
          · rw [if_neg hj, upd_eval]
            by_cases hja : j = a
            · rw [if_pos hja, if_pos (by rw [hja]; exact List.mem_cons_self _ _)]
            · rw [if_neg hja, if_neg (by
                intro hmem
                rcases List.mem_cons.mp hmem with h3 | h3
                · exact hja h3
                · exact hj h3)]
        have e2 : (fun j => if j ∈ ns then true else upd vis a true j) =
            (fun j => if j ∈ a :: ns then true else vis j) := by
          funext j
          by_cases hj : j ∈ ns
          · rw [if_pos hj, if_pos (List.mem_cons_of_mem _ hj)]
          · rw [if_neg hj, upd_eval]
            by_cases hja : j = a
            · rw [if_pos hja, if_pos (by rw [hja]; exact List.mem_cons_self _ _)]
            · rw [if_neg hja, if_neg (by
                intro hmem
                rcases List.mem_cons.mp hmem with h3 | h3
                · exact hja h3
                · exact hj h3)]
        rw [e1, e2, List.append_assoc]
        rfl
      · intro j hj
        rcases List.mem_cons.mp hj with rfl | hj2
        · exact ⟨hva', ha⟩
        · have hfj := hfresh j hj2
          refine ⟨?_, hfj.2⟩
          have h1 := hfj.1
          rw [upd_eval] at h1
          by_cases hja : j = a
          · rw [if_pos hja] at h1
            cases h1
          · rw [if_neg hja] at h1
            exact h1
      · intro j hj
        rcases List.mem_cons.mp hj with rfl | hj2
        · exact ⟨w, List.mem_cons_self _ _⟩
        · obtain ⟨w2, hw2⟩ := hedge j hj2
          exact ⟨w2, List.mem_cons_of_mem _ hw2⟩
      · intro p hp
        rcases List.mem_cons.mp hp with rfl | hp2
        · exact Or.inl (List.mem_cons_self _ _)
        · rcases hcov p hp2 with h | h
          · exact Or.inl (List.mem_cons_of_mem _ h)
          · rw [upd_eval] at h
            by_cases hpa : p.1 = a
            · exact Or.inl (by rw [hpa]; exact List.mem_cons_self _ _)
            · rw [if_neg hpa] at h
              exact Or.inr h

/-- Number of unvisited indices below the array bound. -/
def unvisCard (vis : Nat → Bool) : Nat :=
  ((Finset.range bigN).filter (fun i => vis i = false)).card

theorem unvisCard_le_bigN (vis : Nat → Bool) : unvisCard vis ≤ bigN :=
  le_trans (Finset.card_filter_le _ _) (le_of_eq (Finset.card_range bigN))

/-- Marking a duplicate-free list of fresh in-bounds nodes visited decreases
the unvisited count by exactly its length. -/
theorem unvisCard_visit (vis : Nat → Bool) (ns : List Nat) (hnd : ns.Nodup)
    (hf : ∀ j ∈ ns, vis j = false ∧ j < bigN) :
    unvisCard (fun j => if j ∈ ns then true else vis j) + ns.length = unvisCard vis := by
  have hsub : ns.toFinset ⊆ (Finset.range bigN).filter (fun i => vis i = false) := by
    intro j hj
    rw [List.mem_toFinset] at hj
    rcases hf j hj with ⟨h1, h2⟩
    simp [Finset.mem_filter, Finset.mem_range, h1, h2]
  have hset : (Finset.range bigN).filter
        (fun i => (fun j => if j ∈ ns then true else vis j) i = false) =
      ((Finset.range bigN).filter (fun i => vis i = false)) \ ns.toFinset := by
    ext j
    by_cases hj : j ∈ ns <;>
      simp [Finset.mem_filter, Finset.mem_sdiff, Finset.mem_range, List.mem_toFinset, hj]
  have hlen : ns.toFinset.card = ns.length := List.toFinset_card_of_nodup hnd
  show ((Finset.range bigN).filter
      (fun i => (fun j => if j ∈ ns then true else vis j) i = false)).card + ns.length =
    unvisCard vis
  rw [hset, Finset.card_sdiff hsub, hlen]
  exact Nat.sub_add_cancel (le_trans (le_of_eq hlen.symm) (Finset.card_le_card hsub))

/-- The BFS while loop invariant, for source s over the adjacency array adj. -/
structure BfsInv (adj : Nat → List (Nat × Int)) (s : Nat) (dist : Nat → Int)
    (vis : Nat → Bool) (q : List Nat) : Prop where
  nodup : q.Nodup
  qlt : ∀ v ∈ q, v < bigN
  qvis : ∀ v ∈ q, vis v = true
  svis : vis s = true
  sdist : dist s = 0
  upper : ∀ v, vis v = true → ∃ k : Nat, dist v = (k : Int) ∧ HasPath adj s v k
  unvis : ∀ v, vis v = false → dist v = -1
  levels : ∃ d : Int, ∃ q1 q2 : List Nat, q = q1 ++ q2 ∧
    (∀ v ∈ q1, dist v = d) ∧ (∀ v ∈ q2, dist v = d + 1)
  processed : ∀ u, vis u = true → u ∉ q →
    ∀ v w, (v, w) ∈ adj u → vis v = true ∧ dist v ≤ dist u + 1
  procLe : ∀ u, vis u = true → u ∉ q → ∀ b ∈ q, dist u ≤ dist b

/-- The state of the two arrays at loop exit. -/
structure BfsPost (adj : Nat → List (Nat × Int)) (s : Nat) (dist : Nat → Int)
    (vis : Nat → Bool) : Prop where
  svis : vis s = true
  sdist : dist s = 0
  upper : ∀ v, vis v = true → ∃ k : Nat, dist v = (k : Int) ∧ HasPath adj s v k
  unvis : ∀ v, vis v = false → dist v = -1
  closed : ∀ u, vis u = true → ∀ v w, (v, w) ∈ adj u → vis v = true ∧ dist v ≤ dist u + 1

/-- The head of the queue has minimal distance, and every queued node is at
most one level deeper. -/
theorem BfsInv.head_min {adj : Nat → List (Nat × Int)} {s : Nat} {dist : Nat → Int}
    {vis : Nat → Bool} {cur : Nat} {q : List Nat}
    (inv : BfsInv adj s dist vis (cur :: q)) :
    (∀ b ∈ q, dist cur ≤ dist b) ∧ (∀ b ∈ q, dist b ≤ dist cur + 1) := by
  obtain ⟨d, q1, q2, hq, h1, h2⟩ := inv.levels
  cases q1 with
  | nil =>
    simp only [List.nil_append] at hq
    have hc : dist cur = d + 1 := h2 cur (by rw [← hq]; exact List.mem_cons_self _ _)
    have hb : ∀ b ∈ q, dist b = d + 1 :=
      fun b hb => h2 b (by rw [← hq]; exact List.mem_cons_of_mem _ hb)
    constructor <;> intro b hbq
    · rw [hc, hb b hbq]
    · rw [hc, hb b hbq]
      omega
  | cons c t =>
    rw [List.cons_append] at hq
    obtain ⟨rfl, hq2⟩ : cur = c ∧ q = t ++ q2 := by
      have h3 := List.cons.inj hq
      exact ⟨h3.1, h3.2⟩
    have hc : dist cur = d := h1 cur (List.mem_cons_self _ _)
    constructor <;> intro b hbq <;> rw [hq2] at hbq <;>
      rcases List.mem_append.mp hbq with hbt | hbq2
    · rw [hc, h1 b (List.mem_cons_of_mem _ hbt)]
    · rw [hc, h2 b hbq2]
      omega
    · rw [hc, h1 b (List.mem_cons_of_mem _ hbt)]
      omega
    · rw [hc, h2 b hbq2]

/-- One iteration of the while loop preserves the invariant: popping cur and
marking its fresh neighbors ns keeps BfsInv for the new arrays and queue. -/
theorem BfsInv.step {adj : Nat → List (Nat × Int)} {s cur : Nat} {q : List Nat}
    {dist : Nat → Int} {vis : Nat → Bool} {ns : List Nat}
    (inv : BfsInv adj s dist vis (cur :: q))
    (hnd : ns.Nodup)
    (hfresh : ∀ j ∈ ns, vis j = false ∧ j < bigN)
    (hedge : ∀ j ∈ ns, ∃ w, (j, w) ∈ adj cur)
    (hcov : ∀ p ∈ adj cur, (p : Nat × Int).1 ∈ ns ∨ vis p.1 = true) :
    BfsInv adj s (fun j => if j ∈ ns then dist cur + 1 else dist j)
      (fun j => if j ∈ ns then true else vis j) (q ++ ns) := by
  have hcvis : vis cur = true := inv.qvis cur (List.mem_cons_self _ _)
  have hnotin : ∀ j, vis j = true → j ∉ ns := by
    intro j hj hmem
    have := (hfresh j hmem).1
    rw [hj] at this
    cases this
  have hcns : cur ∉ ns := hnotin cur hcvis
  have hvisq : ∀ b ∈ q, vis b = true :=
    fun b hb => inv.qvis b (List.mem_cons_of_mem _ hb)
  have hqns : ∀ b ∈ q, b ∉ ns := fun b hb => hnotin b (hvisq b hb)
  have hcurq : cur ∉ q := (List.nodup_cons.mp inv.nodup).1
  obtain ⟨hge, hle⟩ := inv.head_min
  refine ⟨?_, ?_, ?_, ?_, ?_, ?_, ?_, ?_, ?_, ?_⟩
  · exact List.Nodup.append (List.nodup_cons.mp inv.nodup).2 hnd hqns
  · intro v hv
    rcases List.mem_append.mp hv with h | h
    · exact inv.qlt v (List.mem_cons_of_mem _ h)
    · exact (hfresh v h).2
  · intro v hv
    show (if v ∈ ns then true else vis v) = true
    rcases List.mem_append.mp hv with h | h
    · rw [if_neg (hqns v h)]
      exact hvisq v h
    · rw [if_pos h]
  · show (if s ∈ ns then true else vis s) = true
    rw [if_neg (hnotin s inv.svis)]
    exact inv.svis
  · show (if s ∈ ns then dist cur + 1 else dist s) = 0
    rw [if_neg (hnotin s inv.svis)]
    exact inv.sdist
  · intro v hv
    simp only at hv
    by_cases hvns : v ∈ ns
    · obtain ⟨k, hk, hp⟩ := inv.upper cur hcvis
      obtain ⟨w, hw⟩ := hedge v hvns
      refine ⟨k + 1, ?_, HasPath.tail hp w hw⟩
      show (if v ∈ ns then dist cur + 1 else dist v) = ((k + 1 : Nat) : Int)
      rw [if_pos hvns, hk]
      push_cast
      ring
    · rw [if_neg hvns] at hv
      obtain ⟨k, hk, hp⟩ := inv.upper v hv
      refine ⟨k, ?_, hp⟩
      show (if v ∈ ns then dist cur + 1 else dist v) = (k : Int)
      rw [if_neg hvns]
      exact hk
  · intro v hv
    simp only at hv
    by_cases hvns : v ∈ ns
    · rw [if_pos hvns] at hv
      cases hv
    · rw [if_neg hvns] at hv
      show (if v ∈ ns then dist cur + 1 else dist v) = -1
      rw [if_neg hvns]
      exact inv.unvis v hv
  · obtain ⟨d, q1, q2, hq, h1, h2⟩ := inv.levels
    cases q1 with
    | nil =>
      simp only [List.nil_append] at hq
      have hc : dist cur = d + 1 := h2 cur (by rw [← hq]; exact List.mem_cons_self _ _)
      refine ⟨d + 1, q, ns, rfl, ?_, ?_⟩
      · intro v hvq
        show (if v ∈ ns then dist cur + 1 else dist v) = d + 1
        rw [if_neg (hqns v hvq)]
        exact h2 v (by rw [← hq]; exact List.mem_cons_of_mem _ hvq)
      · intro v hvns
        show (if v ∈ ns then dist cur + 1 else dist v) = d + 1 + 1
        rw [if_pos hvns, hc]
    | cons c t =>
      rw [List.cons_append] at hq
      obtain ⟨rfl, hq2⟩ : cur = c ∧ q = t ++ q2 := by
        have h3 := List.cons.inj hq
        exact ⟨h3.1, h3.2⟩
      have hc : dist cur = d := h1 cur (List.mem_cons_self _ _)
      refine ⟨d, t, q2 ++ ns, by rw [hq2, List.append_assoc], ?_, ?_⟩
      · intro v hvt
        have hvq : v ∈ q := by rw [hq2]; exact List.mem_append.mpr (Or.inl hvt)
        show (if v ∈ ns then dist cur + 1 else dist v) = d
        rw [if_neg (hqns v hvq)]
        exact h1 v (List.mem_cons_of_mem _ hvt)
      · intro v hv
        rcases List.mem_append.mp hv with hvq2 | hvns
        · have hvq : v ∈ q := by rw [hq2]; exact List.mem_append.mpr (Or.inr hvq2)
          show (if v ∈ ns then dist cur + 1 else dist v) = d + 1
          rw [if_neg (hqns v hvq)]
          exact h2 v hvq2
        · show (if v ∈ ns then dist cur + 1 else dist v) = d + 1
          rw [if_pos hvns, hc]
  · intro u hu hunotin v w hw
    simp only at hu
    have huns : u ∉ ns := fun hmem => hunotin (List.mem_append.mpr (Or.inr hmem))
    have huq : u ∉ q := fun hmem => hunotin (List.mem_append.mpr (Or.inl hmem))
    rw [if_neg huns] at hu
    have hdist_u : (if u ∈ ns then dist cur + 1 else dist u) = dist u := if_neg huns
    by_cases huc : u = cur
    · subst huc
      rcases hcov (v, w) hw with hvns | hvvis
      · constructor
        · show (if v ∈ ns then true else vis v) = true
          rw [if_pos hvns]
        · show (if v ∈ ns then dist u + 1 else dist v) ≤
            (if u ∈ ns then dist u + 1 else dist u) + 1
          rw [if_pos hvns, hdist_u]
      · have hvnotns : v ∉ ns := hnotin v hvvis
        constructor
        · show (if v ∈ ns then true else vis v) = true
          rw [if_neg hvnotns]
          exact hvvis
        · show (if v ∈ ns then dist u + 1 else dist v) ≤
            (if u ∈ ns then dist u + 1 else dist u) + 1
          rw [if_neg hvnotns, hdist_u]
          by_cases hvc : v = u
          · rw [hvc]
            omega
          · by_cases hvq : v ∈ q
            · have := hle v hvq
              omega
            · have hvnotcq : v ∉ u :: q := by
                intro hmem
                rcases List.mem_cons.mp hmem with h3 | h3
                · exact hvc h3
                · exact hvq h3
              have := inv.procLe v hvvis hvnotcq u (List.mem_cons_self _ _)
              omega
    · have hunotcq : u ∉ cur :: q := by
        intro hmem
        rcases List.mem_cons.mp hmem with h3 | h3
        · exact huc h3
        · exact huq h3
      obtain ⟨hvvis, hvb⟩ := inv.processed u hu hunotcq v w hw
      have hvnotns : v ∉ ns := hnotin v hvvis
      constructor
      · show (if v ∈ ns then true else vis v) = true
        rw [if_neg hvnotns]
        exact hvvis
      · show (if v ∈ ns then dist cur + 1 else dist v) ≤
          (if u ∈ ns then dist cur + 1 else dist u) + 1
        rw [if_neg hvnotns, hdist_u]
        exact hvb
  · intro u hu hunotin b hb
    simp only at hu
    have huns : u ∉ ns := fun hmem => hunotin (List.mem_append.mpr (Or.inr hmem))
    have huq : u ∉ q := fun hmem => hunotin (List.mem_append.mpr (Or.inl hmem))
    rw [if_neg huns] at hu
    show (if u ∈ ns then dist cur + 1 else dist u) ≤ (if b ∈ ns then dist cur + 1 else dist b)
    rw [if_neg huns]
    have hucur_le : dist u ≤ dist cur := by
      by_cases huc : u = cur
      · rw [huc]
      · have hunotcq : u ∉ cur :: q := by
          intro hmem
          rcases List.mem_cons.mp hmem with h3 | h3
          · exact huc h3
          · exact huq h3
        exact inv.procLe u hu hunotcq cur (List.mem_cons_self _ _)
    rcases List.mem_append.mp hb with hbq | hbns
    · rw [if_neg (hqns b hbq)]
      by_cases huc : u = cur
      · rw [huc]
        exact hge b hbq
      · have hunotcq : u ∉ cur :: q := by
          intro hmem
          rcases List.mem_cons.mp hmem with h3 | h3
          · exact huc h3
          · exact huq h3
        exact inv.procLe u hu hunotcq b (List.mem_cons_of_mem _ hbq)
    · rw [if_pos hbns]
      omega

/-- Fuel measure for one loop state: enough fuel to finish from here. -/
def loopMeasure (vis : Nat → Bool) (q : List Nat) : Nat :=
  2 * unvisCard vis + q.length

/-- The while loop, given the invariant and enough fuel, terminates normally
and establishes the exit conditions. -/
theorem runLoop_spec (g : Graph) (s : Nat)
    (hwf : ∀ u p, p ∈ g.adj u → (p : Nat × Int).1 < bigN) :
    ∀ (fuel : Nat) (q : List Nat) (dist : Nat → Int) (vis : Nat → Bool),
      BfsInv g.adj s dist vis q → loopMeasure vis q ≤ fuel →
      (runLoop g fuel q dist vis).1 = .ok () ∧
      BfsPost g.adj s (runLoop g fuel q dist vis).2.1 (runLoop g fuel q dist vis).2.2 := by
  intro fuel
  induction fuel with
  | zero =>
    intro q dist vis inv hm
    cases q with
    | nil =>
      refine ⟨rfl, inv.svis, inv.sdist, inv.upper, inv.unvis, ?_⟩
      exact fun u hu v w hw => inv.processed u hu (List.not_mem_nil u) v w hw
    | cons cur rest =>
      exfalso
      unfold loopMeasure at hm
      rw [List.length_cons] at hm
      omega
  | succ f ih =>
    intro q dist vis inv hm
    cases q with
    | nil =>
      refine ⟨rfl, inv.svis, inv.sdist, inv.upper, inv.unvis, ?_⟩
      exact fun u hu v w hw => inv.processed u hu (List.not_mem_nil u) v w hw
    | cons cur rest =>
      have hcur : cur < bigN := inv.qlt cur (List.mem_cons_self _ _)
      have hcvis : vis cur = true := inv.qvis cur (List.mem_cons_self _ _)
      obtain ⟨ns, heq, hnd, hfresh, hedge, hcov⟩ :=
        visitNeighbors_spec cur hcur (g.adj cur) dist vis rest
          (fun p hp => hwf cur p hp) hcvis
      have hunfold : runLoop g (f + 1) (cur :: rest) dist vis =
          runLoop g f (rest ++ ns) (fun j => if j ∈ ns then dist cur + 1 else dist j)
            (fun j => if j ∈ ns then true else vis j) := by
        simp only [runLoop, hcur, if_true, heq]
      have inv2 := inv.step hnd hfresh hedge hcov
      have hcount := unvisCard_visit vis ns hnd hfresh
      have hm2 : loopMeasure (fun j => if j ∈ ns then true else vis j) (rest ++ ns) ≤ f := by
        unfold loopMeasure at hm ⊢
        rw [List.length_append]
        rw [List.length_cons] at hm
        omega
      rw [hunfold]
      exact ih (rest ++ ns) _ _ inv2 hm2

/-- Every node reachable from the source is marked visited at loop exit. -/
theorem BfsPost.reach_visited {adj : Nat → List (Nat × Int)} {s : Nat}
    {dist : Nat → Int} {vis : Nat → Bool} (post : BfsPost adj s dist vis) :
    ∀ v k, HasPath adj s v k → vis v = true := by
  intro v k hp
  induction hp with
  | refl => exact post.svis
  | @tail u v2 k2 hp2 w hw ih => exact (post.closed u ih v2 w hw).1

/-- At loop exit the recorded distance is a lower bound of every path length. -/
theorem BfsPost.dist_le_path {adj : Nat → List (Nat × Int)} {s : Nat}
    {dist : Nat → Int} {vis : Nat → Bool} (post : BfsPost adj s dist vis) :
    ∀ v k, HasPath adj s v k → dist v ≤ (k : Int) := by
  intro v k hp
  induction hp with
  | refl =>
    rw [post.sdist]
    simp
  | @tail u v2 k2 hp2 w hw ih =>
    have hu := post.reach_visited u k2 hp2
    have hb := (post.closed u hu v2 w hw).2
    push_cast
    omega

/-- A path either stays at the source or ends through an adjacency entry. -/
theorem HasPath.end_cases {adj : Nat → List (Nat × Int)} {s v k : Nat}
    (hp : HasPath adj s v k) : v = s ∨ ∃ u w, (v, w) ∈ adj u := by
  cases hp with
  | refl => exact Or.inl rfl
  | @tail u v2 k2 hp2 w hw => exact Or.inr ⟨u, w, hw⟩

/-- Evaluation of min_dist when the target resolves to an in-bounds id. -/
theorem BFS.min_dist_eval (b : BFS) (k : PyKey) (i : Nat) (h2 : Hash)
    (hk : b.g.h.hash k = (.ok i, h2)) (hi : i < bigN) :
    (b.min_dist k).1 = .ok (b.min_dist_from_source i) := by
  simp only [BFS.min_dist, hk, hi, if_true]

/-- Evaluation of is_visited when the target resolves to an in-bounds id. -/
theorem BFS.is_visited_eval (b : BFS) (k : PyKey) (i : Nat) (h2 : Hash)
    (hk : b.g.h.hash k = (.ok i, h2)) (hi : i < bigN) :
    (b.is_visited k).1 = .ok (b.visited i) := by
  simp only [BFS.is_visited, hk, hi, if_true]

/-- Unfolding equation of BFS.run once the source key resolves. -/
theorem BFS.run_eq_internal (b : BFS) (src : PyKey) (sId : Nat) (h1 : Hash)
    (hu : b.g.h.hash src = (.ok sId, h1)) :
    b.run src = (b.setH h1).run_internal sId := by
  unfold BFS.run
  rw [hu]

/-- Unfolding equation of BFS.run_internal when the source id is in bounds. -/
theorem BFS.run_internal_eq (b : BFS) (sId : Nat) (hsId : sId < bigN) :
    b.run_internal sId =
      ((runLoop b.g runFuel [sId] (upd b.min_dist_from_source sId 0)
          (upd b.visited sId true)).1,
        b.setArrays (runLoop b.g runFuel [sId] (upd b.min_dist_from_source sId 0)
            (upd b.visited sId true)).2.1
          (runLoop b.g runFuel [sId] (upd b.min_dist_from_source sId 0)
            (upd b.visited sId true)).2.2) := by
  unfold BFS.run_internal
  rw [if_pos hsId]

/-- BFS.run from a freshly constructed (or cleared) instance on a well-formed
graph with room in the table: it succeeds, only the hash table of the graph
changes, and the two arrays satisfy the exit conditions for the source id. -/
theorem BFS.run_spec (g : Graph) (src : PyKey) (sId : Nat) (h1 : Hash)
    (hwf : g.WF) (hcap : g.h.size < bigN)
    (hu : g.h.hash src = (.ok sId, h1)) :
    ((BFS.new g).run src).1 = .ok () ∧
    ((BFS.new g).run src).2.g = g.setH h1 ∧
    BfsPost g.adj sId ((BFS.new g).run src).2.min_dist_from_source
      ((BFS.new g).run src).2.visited := by
  have hsId : sId < bigN := by
    have h2 := Hash.hash_id_lt g.h src sId hwf.1 (by rw [hu])
    rw [hu] at h2
    have h3 := Hash.hash_size_le g.h src
    rw [hu] at h3
    simp only [Hash.size] at h2 h3 hcap
    omega
  have hwf2 : ∀ u p, p ∈ (g.setH h1).adj u → (p : Nat × Int).1 < bigN := by
    intro u p hp
    have := hwf.2 u p hp
    simp only [Hash.size] at this hcap
    omega
  have inv0 : BfsInv (g.setH h1).adj sId (upd (fun _ => (-1 : Int)) sId 0)
      (upd (fun _ => false) sId true) [sId] := by
    refine ⟨?_, ?_, ?_, ?_, ?_, ?_, ?_, ?_, ?_, ?_⟩
    · simp
    · intro v hv
      rw [List.mem_singleton.mp hv]
      exact hsId
    · intro v hv
      rw [List.mem_singleton.mp hv]
      exact upd_same _ _ _
    · exact upd_same _ _ _
    · exact upd_same _ _ _
    · intro v hv
      rw [upd_eval] at hv
      by_cases hvs : v = sId
      · refine ⟨0, ?_, ?_⟩
        · rw [hvs, upd_same]
          rfl
        · rw [hvs]
          exact HasPath.refl
      · rw [if_neg hvs] at hv
        cases hv
    · intro v hv
      rw [upd_eval] at hv
      by_cases hvs : v = sId
      · rw [if_pos hvs] at hv
        cases hv
      · rw [upd_other _ _ _ _ hvs]
    · refine ⟨0, [sId], [], rfl, ?_, ?_⟩
      · intro v hv
        rw [List.mem_singleton.mp hv]
        exact upd_same _ _ _
      · intro v hv
        cases hv
    · intro u hu2 hnotin v w hw
      exfalso
      rw [upd_eval] at hu2
      by_cases hus : u = sId
      · exact hnotin (by rw [hus]; exact List.mem_cons_self _ _)
      · rw [if_neg hus] at hu2
        cases hu2
    · intro u hu2 hnotin b hb
      exfalso
      rw [upd_eval] at hu2
      by_cases hus : u = sId
      · exact hnotin (by rw [hus]; exact List.mem_cons_self _ _)
      · rw [if_neg hus] at hu2
        cases hu2
  have hmeas : loopMeasure (upd (fun _ => false) sId true) [sId] ≤ runFuel := by
    unfold loopMeasure runFuel
    have := unvisCard_le_bigN (upd (fun _ => false) sId true)
    rw [List.length_singleton]
    omega
  obtain ⟨hok, hpost⟩ := runLoop_spec (g.setH h1) sId hwf2 runFuel [sId]
    (upd (fun _ => (-1 : Int)) sId 0) (upd (fun _ => false) sId true) inv0 hmeas
  have hkey := (BFS.run_eq_internal (BFS.new g) src sId h1 hu).trans
    (BFS.run_internal_eq ((BFS.new g).setH h1) sId hsId)
  rw [hkey]
  exact ⟨hok, rfl, hpost⟩

/-- Resolving a fresh key appends it with the next id. -/
theorem Hash.hash_fresh (h : Hash) (k : PyKey) (t : Int × Int × Int)
    (hn : normalizeKey k = .ok t) (hf : findId h.hash_table t = none) :
    h.hash k = (.ok h.size, ⟨h.hash_table ++ [(t, h.size)]⟩) := by
  simp only [Hash.hash, hn, hf, Hash.size]

/-- Resolving a key already present returns its id and leaves the table. -/
theorem Hash.hash_found (h : Hash) (k : PyKey) (t : Int × Int × Int) (i : Nat)
    (hn : normalizeKey k = .ok t) (hf : findId h.hash_table t = some i) :
    h.hash k = (.ok i, h) := by
  rcases Hash.hash_cases h k with ⟨e, hn1, he⟩ | ⟨t1, j, hn1, hf1, he⟩ | ⟨t1, hn1, hf1, he⟩
  · rw [hn] at hn1
    cases hn1
  · have ht : t1 = t := Except.ok.inj (hn1.symm.trans hn)
    rw [ht] at hf1
    rw [hf] at hf1
    obtain rfl : i = j := Option.some.inj hf1
    exact he
  · have ht : t1 = t := Except.ok.inj (hn1.symm.trans hn)
    rw [ht] at hf1
    rw [hf] at hf1
    cases hf1

/-- C1: after run(source) on a fresh traversal over a well-formed graph whose
dense ids stay within the array capacity (with room for the source and one
queried key), every dense id reachable from the source by directed edges is
visited with distance equal to the minimum number of edge traversals from the
source, every unreachable id stays unvisited with distance -1, and every
NodeKey whose resolved id is unreachable (in particular every key never
inserted as an edge endpoint) reports min_dist -1 and is_visited false. -/
theorem C1_bfs_shortest_paths (g : Graph) (src : PyKey) (sId : Nat) (h1 : Hash)
    (hwf : g.WF) (hcap : g.h.size + 2 ≤ bigN)
    (hu : g.h.hash src = (.ok sId, h1)) :
    ((BFS.new g).run src).1 = .ok () ∧
    (∀ v, Reachable g.adj sId v →
      ((BFS.new g).run src).2.visited v = true ∧
      0 ≤ ((BFS.new g).run src).2.min_dist_from_source v ∧
      HasPath g.adj sId v (((BFS.new g).run src).2.min_dist_from_source v).toNat ∧
      (∀ m, HasPath g.adj sId v m →
        ((BFS.new g).run src).2.min_dist_from_source v ≤ (m : Int))) ∧
    (∀ v, ¬ Reachable g.adj sId v →
      ((BFS.new g).run src).2.visited v = false ∧
      ((BFS.new g).run src).2.min_dist_from_source v = -1) ∧
    (∀ k i h2, h1.hash k = (.ok i, h2) → ¬ Reachable g.adj sId i →
      ((((BFS.new g).run src).2.min_dist k).1 = .ok (-1) ∧
        (((BFS.new g).run src).2.is_visited k).1 = .ok false)) ∧
    (∀ k t, normalizeKey k = .ok t → findId h1.hash_table t = none →
      ((((BFS.new g).run src).2.min_dist k).1 = .ok (-1) ∧
        (((BFS.new g).run src).2.is_visited k).1 = .ok false)) := by
  obtain ⟨hok, hg, hpost⟩ := BFS.run_spec g src sId h1 hwf
    (by simp only [Hash.size] at hcap ⊢; omega) hu
  have hwf1 : h1.WF := by
    have := Hash.hash_WF g.h src hwf.1
    rw [hu] at this
    exact this
  have hs01 : g.h.size ≤ h1.size := by
    have := Hash.size_le_hash g.h src
    rw [hu] at this
    exact this
  have hs1 : h1.size ≤ g.h.size + 1 := by
    have := Hash.hash_size_le g.h src
    rw [hu] at this
    exact this
  have hsId_lt : sId < h1.size := by
    have := Hash.hash_id_lt g.h src sId hwf.1 (by rw [hu])
    rw [hu] at this
    exact this
  have hnotvis : ∀ v, ¬ Reachable g.adj sId v →
      ((BFS.new g).run src).2.visited v = false := by
    intro v hnr
    cases hv : ((BFS.new g).run src).2.visited v
    · rfl
    · exfalso
      obtain ⟨k1, _, hp1⟩ := hpost.upper v hv
      exact hnr ⟨k1, hp1⟩
  have hmain4 : ∀ k i h2, h1.hash k = (.ok i, h2) → ¬ Reachable g.adj sId i →
      ((((BFS.new g).run src).2.min_dist k).1 = .ok (-1) ∧
        (((BFS.new g).run src).2.is_visited k).1 = .ok false) := by
    intro k i h2 hk hnr
    have hi : i < bigN := by
      have h3 := Hash.hash_id_lt h1 k i hwf1 (by rw [hk])
      rw [hk] at h3
      have h4 := Hash.hash_size_le h1 k
      rw [hk] at h4
      simp only [Hash.size] at h3 h4 hs1 hcap
      omega
    have hk2 : ((BFS.new g).run src).2.g.h.hash k = (.ok i, h2) := by
      rw [hg]
      exact hk
    have hvf : ((BFS.new g).run src).2.visited i = false := hnotvis i hnr
    have hdm : ((BFS.new g).run src).2.min_dist_from_source i = -1 := hpost.unvis i hvf
    constructor
    · rw [BFS.min_dist_eval ((BFS.new g).run src).2 k i h2 hk2 hi, hdm]
    · rw [BFS.is_visited_eval ((BFS.new g).run src).2 k i h2 hk2 hi, hvf]
  refine ⟨hok, ?_, ?_, hmain4, ?_⟩
  · intro v hr
    obtain ⟨k0, hp0⟩ := hr
    have hvis := hpost.reach_visited v k0 hp0
    obtain ⟨k1, hk1, hp1⟩ := hpost.upper v hvis
    refine ⟨hvis, ?_, ?_, ?_⟩
    · rw [hk1]
      omega
    · rw [hk1]
      simpa using hp1
    · intro m hpm
      exact hpost.dist_le_path v m hpm
  · intro v hnr
    exact ⟨hnotvis v hnr, hpost.unvis v (hnotvis v hnr)⟩
  · intro k t hn hf
    refine hmain4 k h1.size ⟨h1.hash_table ++ [(t, h1.size)]⟩
      (Hash.hash_fresh h1 k t hn hf) ?_
    intro hr
    obtain ⟨k0, hp0⟩ := hr
    rcases hp0.end_cases with hEq | ⟨u2, w2, hw2⟩
    · rw [hEq] at hsId_lt
      omega
    · have := hwf.2 u2 (h1.size, w2) hw2
      simp only [Hash.size] at this hs01
      omega

/-- A concrete two-edge directed graph used to instantiate the theorems. -/
def wGraph : Graph :=
  (((Graph.new 5 true).add_edge (.int 0) (.int 1) 4).2.add_edge (.int 1) (.int 2) 5).2

theorem C1_witness :
    ((BFS.new wGraph).run (.int 0)).1 = .ok () ∧
    (∀ v, Reachable wGraph.adj 0 v →
      ((BFS.new wGraph).run (.int 0)).2.visited v = true ∧
      0 ≤ ((BFS.new wGraph).run (.int 0)).2.min_dist_from_source v ∧
      HasPath wGraph.adj 0 v
        (((BFS.new wGraph).run (.int 0)).2.min_dist_from_source v).toNat ∧
      (∀ m, HasPath wGraph.adj 0 v m →
        ((BFS.new wGraph).run (.int 0)).2.min_dist_from_source v ≤ (m : Int))) ∧
    (∀ v, ¬ Reachable wGraph.adj 0 v →
      ((BFS.new wGraph).run (.int 0)).2.visited v = false ∧
      ((BFS.new wGraph).run (.int 0)).2.min_dist_from_source v = -1) ∧
    (∀ k i h2, wGraph.h.hash k = (.ok i, h2) → ¬ Reachable wGraph.adj 0 i →
      ((((BFS.new wGraph).run (.int 0)).2.min_dist k).1 = .ok (-1) ∧
        (((BFS.new wGraph).run (.int 0)).2.is_visited k).1 = .ok false)) ∧
    (∀ k t, normalizeKey k = .ok t → findId wGraph.h.hash_table t = none →
      ((((BFS.new wGraph).run (.int 0)).2.min_dist k).1 = .ok (-1) ∧
        (((BFS.new wGraph).run (.int 0)).2.is_visited k).1 = .ok false)) :=
  C1_bfs_shortest_paths wGraph (.int 0) 0 wGraph.h
    (Graph.add_edge_WF _ _ _ _ (Graph.add_edge_WF _ _ _ _ (Graph.new_WF 5 true)))
    (by decide) (by decide)

/-- C7: clear fully resets the traversal and touches nothing else: the
resulting state is exactly a freshly constructed instance over the same graph
(so adjacency lists and the shared index are untouched and a subsequent run
from any source behaves as on a fresh instance), every id reads unvisited with
distance -1, and every key resolving to an in-bounds id reports min_dist -1
and is_visited false. -/
theorem C7_clear_resets (b : BFS) :
    b.clear.g = b.g ∧
    b.clear = BFS.new b.g ∧
    (∀ s, b.clear.run s = (BFS.new b.g).run s) ∧
    (∀ v, b.clear.visited v = false ∧ b.clear.min_dist_from_source v = -1) ∧
    (∀ k i h2, b.g.h.hash k = (.ok i, h2) → i < bigN →
      (b.clear.min_dist k).1 = .ok (-1) ∧ (b.clear.is_visited k).1 = .ok false) := by
  refine ⟨rfl, rfl, fun s => rfl, fun v => ⟨rfl, rfl⟩, ?_⟩
  intro k i h2 hk hi
  constructor
  · rw [BFS.min_dist_eval b.clear k i h2 hk hi]
    rfl
  · rw [BFS.is_visited_eval b.clear k i h2 hk hi]
    rfl

theorem C7_witness :
    (((BFS.new wGraph).run (.int 0)).2.clear.g = ((BFS.new wGraph).run (.int 0)).2.g ∧
      ((BFS.new wGraph).run (.int 0)).2.clear = BFS.new ((BFS.new wGraph).run (.int 0)).2.g ∧
      (∀ s, ((BFS.new wGraph).run (.int 0)).2.clear.run s =
        (BFS.new ((BFS.new wGraph).run (.int 0)).2.g).run s) ∧
      (∀ v, ((BFS.new wGraph).run (.int 0)).2.clear.visited v = false ∧
        ((BFS.new wGraph).run (.int 0)).2.clear.min_dist_from_source v = -1) ∧
      (∀ k i h2, ((BFS.new wGraph).run (.int 0)).2.g.h.hash k = (.ok i, h2) → i < bigN →
        (((BFS.new wGraph).run (.int 0)).2.clear.min_dist k).1 = .ok (-1) ∧
        (((BFS.new wGraph).run (.int 0)).2.clear.is_visited k).1 = .ok false)) ∧
    (((BFS.new wGraph).run (.int 0)).2.clear.min_dist (.int 1)).1 = .ok (-1) ∧
    (((BFS.new wGraph).run (.int 0)).2.clear.is_visited (.int 1)).1 = .ok false := by
  have hmain := C7_clear_resets ((BFS.new wGraph).run (.int 0)).2
  refine ⟨hmain, ?_, ?_⟩
  · exact (hmain.2.2.2.2 (.int 1) 1 ((BFS.new wGraph).run (.int 0)).2.g.h
      (by decide) (by decide)).1
  · exact (hmain.2.2.2.2 (.int 1) 1 ((BFS.new wGraph).run (.int 0)).2.g.h
      (by decide) (by decide)).2

/-- The inner loop never looks at the weight component of an entry: only the
sequence of targets matters. -/
theorem visitNeighbors_fst_eq (cur : Nat) :
    ∀ (e1 e2 : List (Nat × Int)), e1.map Prod.fst = e2.map Prod.fst →
      ∀ (dist : Nat → Int) (vis : Nat → Bool) (q : List Nat),
        visitNeighbors dist vis cur e1 q = visitNeighbors dist vis cur e2 q := by
  intro e1
  induction e1 with
  | nil =>
    intro e2 h dist vis q
    cases e2 with
    | nil => rfl
    | cons p2 rest2 =>
      simp only [List.map_nil, List.map_cons] at h
      exact List.noConfusion h
  | cons p rest ih =>
    intro e2 h dist vis q
    cases e2 with
    | nil =>
      simp only [List.map_nil, List.map_cons] at h
      exact List.noConfusion h
    | cons p2 rest2 =>
      obtain ⟨a, w⟩ := p
      obtain ⟨a2, w2⟩ := p2
      simp only [List.map_cons, List.cons.injEq] at h
      obtain ⟨hfst, hrest⟩ := h
      subst hfst
      by_cases ha : a < bigN
      · by_cases hva : vis a = true
        · simp only [visitNeighbors, ha, if_true, hva]
          exact ih rest2 hrest dist vis q
        · have hva' : vis a = false := by
            cases hx : vis a
            · rfl
            · exact absurd hx hva
          by_cases hc : cur < bigN
          · simp only [visitNeighbors, ha, if_true, hva', Bool.false_eq_true, if_false, hc]
            exact ih rest2 hrest _ _ _
          · simp only [visitNeighbors, ha, if_true, hva', Bool.false_eq_true, if_false, hc]
      · simp only [visitNeighbors, ha, if_false]

/-- The while loop never looks at weights either. -/
theorem runLoop_fst_eq (g1 g2 : Graph)
    (hadj : ∀ i, (g1.adj i).map Prod.fst = (g2.adj i).map Prod.fst) :
    ∀ (fuel : Nat) (q : List Nat) (dist : Nat → Int) (vis : Nat → Bool),
      runLoop g1 fuel q dist vis = runLoop g2 fuel q dist vis := by
  intro fuel
  induction fuel with
  | zero =>
    intro q dist vis
    cases q <;> rfl
  | succ f ih =>
    intro q dist vis
    cases q with
    | nil => rfl
    | cons cur rest =>
      by_cases hc : cur < bigN
      · have h1 : runLoop g1 (f + 1) (cur :: rest) dist vis =
            match visitNeighbors dist vis cur (g1.adj cur) rest with
            | (.error e, dist1, vis1, _) => (.error e, dist1, vis1)
            | (.ok _, dist1, vis1, q1) => runLoop g1 f q1 dist1 vis1 := by
          simp only [runLoop, hc, if_true]
        have h2 : runLoop g2 (f + 1) (cur :: rest) dist vis =
            match visitNeighbors dist vis cur (g2.adj cur) rest with
            | (.error e, dist1, vis1, _) => (.error e, dist1, vis1)
            | (.ok _, dist1, vis1, q1) => runLoop g2 f q1 dist1 vis1 := by
          simp only [runLoop, hc, if_true]
        rw [h1, h2, visitNeighbors_fst_eq cur (g1.adj cur) (g2.adj cur) (hadj cur)]
        rcases hV : visitNeighbors dist vis cur (g2.adj cur) rest with ⟨r, d1, v1, q1⟩
        cases r with
        | error e => rfl
        | ok u => exact ih q1 d1 v1
      · simp only [runLoop, hc, if_false]

/-- The value of min_dist depends only on the hash table and the distance
array. -/
theorem BFS.min_dist_congr (b1 b2 : BFS) (k : PyKey) (hh : b1.g.h = b2.g.h)
    (hd : b1.min_dist_from_source = b2.min_dist_from_source) :
    (b1.min_dist k).1 = (b2.min_dist k).1 := by
  unfold BFS.min_dist
  rw [hh, hd]
  rcases hk : b2.g.h.hash k with ⟨r, h2⟩
  cases r with
  | error e => rfl
  | ok t =>
    show (if t < bigN then
        ((Except.ok (b2.min_dist_from_source t) : Except PyErr Int), b1.setH h2)
      else (Except.error PyErr.indexError, b1.setH h2)).1 =
      (if t < bigN then
        ((Except.ok (b2.min_dist_from_source t) : Except PyErr Int), b2.setH h2)
      else (Except.error PyErr.indexError, b2.setH h2)).1
    by_cases ht : t < bigN
    · rw [if_pos ht, if_pos ht]
    · rw [if_neg ht, if_neg ht]

/-- The value of is_visited depends only on the hash table and the visited
array. -/
theorem BFS.is_visited_congr (b1 b2 : BFS) (k : PyKey) (hh : b1.g.h = b2.g.h)
    (hv : b1.visited = b2.visited) :
    (b1.is_visited k).1 = (b2.is_visited k).1 := by
  unfold BFS.is_visited
  rw [hh, hv]
  rcases hk : b2.g.h.hash k with ⟨r, h2⟩
  cases r with
  | error e => rfl
  | ok t =>
    show (if t < bigN then
        ((Except.ok (b2.visited t) : Except PyErr Bool), b1.setH h2)
      else (Except.error PyErr.indexError, b1.setH h2)).1 =
      (if t < bigN then
        ((Except.ok (b2.visited t) : Except PyErr Bool), b2.setH h2)
      else (Except.error PyErr.indexError, b2.setH h2)).1
    by_cases ht : t < bigN
    · rw [if_pos ht, if_pos ht]
    · rw [if_neg ht, if_neg ht]

/-- Unfolding equation of BFS.run when resolving the source raises. -/
theorem BFS.run_eq_error (b : BFS) (src : PyKey) (e : PyErr) (h1 : Hash)
    (hu : b.g.h.hash src = (.error e, h1)) :
    b.run src = (.error e, b.setH h1) := by
  unfold BFS.run
  rw [hu]

/-- Unfolding equation of BFS.run_internal for an out-of-bounds source id. -/
theorem BFS.run_internal_oob (b : BFS) (sId : Nat) (hs : ¬ sId < bigN) :
    b.run_internal sId = (.error .indexError, b) := by
  unfold BFS.run_internal
  rw [if_neg hs]

/-- C6: BFS results are independent of edge weights: on two graphs identical
except for the weight values attached to corresponding adjacency entries, run
from the same source produces the same outcome, identical visited flags and
identical distances for every dense id, and identical min_dist and is_visited
answers for every NodeKey. -/
theorem C6_weights_unobservable (g1 g2 : Graph) (src : PyKey)
    (hn : g1.n = g2.n) (hd : g1.is_directed = g2.is_directed) (hh : g1.h = g2.h)
    (hadj : ∀ i, (g1.adj i).map Prod.fst = (g2.adj i).map Prod.fst) :
    ((BFS.new g1).run src).1 = ((BFS.new g2).run src).1 ∧
    (∀ v, ((BFS.new g1).run src).2.visited v = ((BFS.new g2).run src).2.visited v) ∧
    (∀ v, ((BFS.new g1).run src).2.min_dist_from_source v =
      ((BFS.new g2).run src).2.min_dist_from_source v) ∧
    (∀ k, (((BFS.new g1).run src).2.min_dist k).1 =
      (((BFS.new g2).run src).2.min_dist k).1) ∧
    (∀ k, (((BFS.new g1).run src).2.is_visited k).1 =
      (((BFS.new g2).run src).2.is_visited k).1) := by
  rcases hres : g1.h.hash src with ⟨r, h1⟩
  have hres2 : g2.h.hash src = (r, h1) := by
    rw [← hh]
    exact hres
  cases r with
  | error e =>
    have c1 : (BFS.new g1).run src = (.error e, (BFS.new g1).setH h1) :=
      BFS.run_eq_error _ src e h1 hres
    have c2 : (BFS.new g2).run src = (.error e, (BFS.new g2).setH h1) :=
      BFS.run_eq_error _ src e h1 hres2
    rw [c1, c2]
    exact ⟨rfl, fun v => rfl, fun v => rfl,
      fun k => BFS.min_dist_congr _ _ k rfl rfl,
      fun k => BFS.is_visited_congr _ _ k rfl rfl⟩
  | ok s =>
    by_cases hs : s < bigN
    · have c1 : (BFS.new g1).run src =
          ((runLoop (g1.setH h1) runFuel [s] (upd (fun _ => (-1 : Int)) s 0)
              (upd (fun _ => false) s true)).1,
            ⟨g1.setH h1,
              (runLoop (g1.setH h1) runFuel [s] (upd (fun _ => (-1 : Int)) s 0)
                (upd (fun _ => false) s true)).2.1,
              (runLoop (g1.setH h1) runFuel [s] (upd (fun _ => (-1 : Int)) s 0)
                (upd (fun _ => false) s true)).2.2⟩) :=
        (BFS.run_eq_internal _ src s h1 hres).trans (BFS.run_internal_eq _ s hs)
      have c2 : (BFS.new g2).run src =
          ((runLoop (g2.setH h1) runFuel [s] (upd (fun _ => (-1 : Int)) s 0)
              (upd (fun _ => false) s true)).1,
            ⟨g2.setH h1,
              (runLoop (g2.setH h1) runFuel [s] (upd (fun _ => (-1 : Int)) s 0)
                (upd (fun _ => false) s true)).2.1,
              (runLoop (g2.setH h1) runFuel [s] (upd (fun _ => (-1 : Int)) s 0)
                (upd (fun _ => false) s true)).2.2⟩) :=
        (BFS.run_eq_internal _ src s h1 hres2).trans (BFS.run_internal_eq _ s hs)
      have hrl : runLoop (g1.setH h1) runFuel [s] (upd (fun _ => (-1 : Int)) s 0)
            (upd (fun _ => false) s true) =
          runLoop (g2.setH h1) runFuel [s] (upd (fun _ => (-1 : Int)) s 0)
            (upd (fun _ => false) s true) :=
        runLoop_fst_eq (g1.setH h1) (g2.setH h1) (fun i => hadj i) runFuel [s] _ _
      rw [c1, c2, hrl]
      exact ⟨rfl, fun v => rfl, fun v => rfl,
        fun k => BFS.min_dist_congr _ _ k rfl rfl,
        fun k => BFS.is_visited_congr _ _ k rfl rfl⟩
    · have c1 : (BFS.new g1).run src = (.error .indexError, (BFS.new g1).setH h1) :=
        (BFS.run_eq_internal _ src s h1 hres).trans (BFS.run_internal_oob _ s hs)
      have c2 : (BFS.new g2).run src = (.error .indexError, (BFS.new g2).setH h1) :=
        (BFS.run_eq_internal _ src s h1 hres2).trans (BFS.run_internal_oob _ s hs)
      rw [c1, c2]
      exact ⟨rfl, fun v => rfl, fun v => rfl,
        fun k => BFS.min_dist_congr _ _ k rfl rfl,
        fun k => BFS.is_visited_congr _ _ k rfl rfl⟩

/-- Concrete adjacency arrays differing only in weights, for the witness. -/
def wAdj1 : Nat → List (Nat × Int) :=
  fun i => if i = 0 then [(1, 4)] else if i = 1 then [(2, 5)] else []

def wAdj2 : Nat → List (Nat × Int) :=
  fun i => if i = 0 then [(1, 7)] else if i = 1 then [(2, 9)] else []

def wG1 : Graph := ⟨5, true, wAdj1, ⟨[((0, 0, 0), 0), ((1, 0, 0), 1), ((2, 0, 0), 2)]⟩⟩

def wG2 : Graph := ⟨5, true, wAdj2, ⟨[((0, 0, 0), 0), ((1, 0, 0), 1), ((2, 0, 0), 2)]⟩⟩

theorem C6_witness :
    ((BFS.new wG1).run (.int 0)).1 = ((BFS.new wG2).run (.int 0)).1 ∧
    (∀ v, ((BFS.new wG1).run (.int 0)).2.visited v =
      ((BFS.new wG2).run (.int 0)).2.visited v) ∧
    (∀ v, ((BFS.new wG1).run (.int 0)).2.min_dist_from_source v =
      ((BFS.new wG2).run (.int 0)).2.min_dist_from_source v) ∧
    (∀ k, (((BFS.new wG1).run (.int 0)).2.min_dist k).1 =
      (((BFS.new wG2).run (.int 0)).2.min_dist k).1) ∧
    (∀ k, (((BFS.new wG1).run (.int 0)).2.is_visited k).1 =
      (((BFS.new wG2).run (.int 0)).2.is_visited k).1) :=
  C6_weights_unobservable wG1 wG2 (.int 0) rfl rfl rfl (by
    intro i
    by_cases h0 : i = 0
    · simp [wG1, wG2, wAdj1, wAdj2, h0]
    · by_cases h1 : i = 1 <;> simp [wG1, wG2, wAdj1, wAdj2, h0, h1])

/-- C2 (amended): the store never checks nodeCapacity n.  With both resolved
ids below the internal array size 5,000,000, addEdge succeeds and writes the
adjacency entry whatever the relation of the ids to n (in particular ids at
or beyond n are written silently); run succeeds and writes BFS state for any
resolvable source on a well-formed in-capacity store, again regardless of n;
and the only enforced bound is the 5,000,000-entry array, whose violation
surfaces as an IndexError rather than a capacity error. -/
theorem C2_capacity_not_enforced (g : Graph) (u v : PyKey) (w : Int)
    (uh vh : Nat) (h1 h2 : Hash)
    (hu : g.h.hash u = (.ok uh, h1)) (hv : h1.hash v = (.ok vh, h2))
    (huh : uh < bigN) (hvh : vh < bigN) :
    ((g.add_edge u v w).1 = .ok () ∧ (vh, w) ∈ (g.add_edge u v w).2.adj uh) ∧
    (∀ (src : PyKey) (sId : Nat) (h3 : Hash), g.WF → g.h.size < bigN →
      g.h.hash src = (.ok sId, h3) →
      ((BFS.new g).run src).1 = .ok () ∧ ((BFS.new g).run src).2.visited sId = true) ∧
    (∀ (u2 v2 : PyKey) (w2 : Int) (uh2 vh2 : Nat) (h12 h22 : Hash),
      g.h.hash u2 = (.ok uh2, h12) → h12.hash v2 = (.ok vh2, h22) → ¬ uh2 < bigN →
      (g.add_edge u2 v2 w2).1 = .error .indexError ∧
      (g.add_edge u2 v2 w2).2.adj = g.adj) := by
  refine ⟨?_, ?_, ?_⟩
  · cases hdd : g.is_directed with
    | true =>
      rw [Graph.add_edge_directed_spec g u v w uh vh h1 h2 hu hv huh hdd]
      refine ⟨rfl, ?_⟩
      show (vh, w) ∈ upd g.adj uh (g.adj uh ++ [(vh, w)]) uh
      rw [upd_same]
      exact List.mem_append.mpr (Or.inr (List.mem_singleton.mpr rfl))
    | false =>
      rw [Graph.add_edge_undirected_spec g u v w uh vh h1 h2 hu hv huh hvh hdd]
      refine ⟨rfl, ?_⟩
      show (vh, w) ∈ upd (upd g.adj uh (g.adj uh ++ [(vh, w)])) vh
          ((upd g.adj uh (g.adj uh ++ [(vh, w)])) vh ++ [(uh, w)]) uh
      by_cases he : uh = vh
      · rw [he, upd_same, upd_same]
        exact List.mem_append.mpr (Or.inl (List.mem_append.mpr
          (Or.inr (List.mem_singleton.mpr rfl))))
      · rw [upd_other _ _ _ _ he, upd_same]
        exact List.mem_append.mpr (Or.inr (List.mem_singleton.mpr rfl))
  · intro src sId h3 hwfg hcapg hsrc
    obtain ⟨hok, _, hpost⟩ := BFS.run_spec g src sId h3 hwfg hcapg hsrc
    exact ⟨hok, hpost.svis⟩
  · intro u2 v2 w2 uh2 vh2 h12 h22 hu2 hv2 hoob
    rw [Graph.add_edge_firstOOB_spec g u2 v2 w2 uh2 vh2 h12 h22 hu2 hv2 hoob]
    exact ⟨rfl, rfl⟩

theorem C2_witness :
    (((Graph.new 1 true).add_edge (.int 0) (.int 1) 0).1 = .ok () ∧
      (1, 0) ∈ ((Graph.new 1 true).add_edge (.int 0) (.int 1) 0).2.adj 0) ∧
    (∀ (src : PyKey) (sId : Nat) (h3 : Hash),
      (Graph.new 1 true).WF → (Graph.new 1 true).h.size < bigN →
      (Graph.new 1 true).h.hash src = (.ok sId, h3) →
      ((BFS.new (Graph.new 1 true)).run src).1 = .ok () ∧
      ((BFS.new (Graph.new 1 true)).run src).2.visited sId = true) ∧
    (∀ (u2 v2 : PyKey) (w2 : Int) (uh2 vh2 : Nat) (h12 h22 : Hash),
      (Graph.new 1 true).h.hash u2 = (.ok uh2, h12) → h12.hash v2 = (.ok vh2, h22) →
      ¬ uh2 < bigN →
      ((Graph.new 1 true).add_edge u2 v2 w2).1 = .error .indexError ∧
      ((Graph.new 1 true).add_edge u2 v2 w2).2.adj = (Graph.new 1 true).adj) :=
  C2_capacity_not_enforced (Graph.new 1 true) (.int 0) (.int 1) 0 0 1
    ⟨[((0, 0, 0), 0)]⟩ ⟨[((0, 0, 0), 0), ((1, 0, 0), 1)]⟩
    (by decide) (by decide) (by decide) (by decide)

/-- The hash table obtained by resolving Scalar 0, Scalar 1, ..., Scalar (m-1)
in order against a fresh index. -/
def scalarList : Nat → List ((Int × Int × Int) × Nat)
  | 0 => []
  | m + 1 => scalarList m ++ [(((m : Int), 0, 0), m)]

theorem scalarList_length (m : Nat) : (scalarList m).length = m := by
  induction m with
  | zero => rfl
  | succ m ih => simp [scalarList, ih]

theorem findId_scalarList (m j : Nat) :
    findId (scalarList m) ((j : Int), 0, 0) = if j < m then some j else none := by
  induction m with
  | zero =>
    simp [scalarList, findId]
  | succ m ih =>
    rw [scalarList]
    by_cases hj : j < m
    · rw [findId_append_some (by rw [ih, if_pos hj])]
      rw [if_pos (Nat.lt_succ_of_lt hj)]
    · rw [findId_append_none (by rw [ih, if_neg hj]), findId_singleton]
      by_cases hjm : j = m
      · subst hjm
        simp
      · have hne : ¬ (((m : Int), (0 : Int), (0 : Int)) = ((j : Int), 0, 0)) := by
          intro hEq
          apply hjm
          have := congrArg (fun t => t.1) hEq
          simp only at this
          exact_mod_cast this.symm
        rw [if_neg hne, if_neg (by omega)]

theorem hash_scalar_fresh (m : Nat) :
    Hash.hash ⟨scalarList m⟩ (.int (m : Int)) = (.ok m, ⟨scalarList (m + 1)⟩) := by
  have hf : findId (scalarList m) ((m : Int), 0, 0) = none := by
    rw [findId_scalarList]
    simp
  have h := Hash.hash_fresh ⟨scalarList m⟩ (.int (m : Int)) ((m : Int), 0, 0) rfl hf
  rw [h]
  have hsz : Hash.size ⟨scalarList m⟩ = m := scalarList_length m
  rw [hsz]
  rfl

/-- Unfolding equation of Graph.hash on a single key. -/
theorem Graph.hashKey_eq (g : Graph) (k : PyKey) :
    g.hashKey k = ((g.h.hash k).1, g.setH (g.h.hash k).2) := by
  unfold Graph.hashKey
  rcases hk : g.h.hash k with ⟨r, h1⟩
  rfl

/-- The store obtained from a fresh graph by resolving Scalar 0 ... up to
Scalar (m-1) through the Graph.hash API. -/
def mintScalars (g : Graph) : Nat → Graph
  | 0 => g
  | m + 1 => ((mintScalars g m).hashKey (.int (m : Int))).2

theorem mintScalars_spec (n : Nat) (d : Bool) (m : Nat) :
    mintScalars (Graph.new n d) m = ⟨n, d, fun _ => [], ⟨scalarList m⟩⟩ := by
  induction m with
  | zero => rfl
  | succ m ih =>
    rw [mintScalars, ih, Graph.hashKey_eq]
    show (⟨n, d, fun _ => [], ⟨scalarList m⟩⟩ : Graph).setH
        (Hash.hash ⟨scalarList m⟩ (.int (m : Int))).2 = _
    rw [hash_scalar_fresh m]
    rfl

/-- C8 counterexample: an undirected store whose shared index holds the
5,000,000 keys Scalar 0 .. Scalar 4999999 (reached by resolving them in
order); addEdge(Scalar 0, Scalar 5000000, 0) resolves ids 0 and 5000000,
appends (5000000, 0) under id 0, and only then raises an IndexError on the
mirrored append: the call leaves exactly one of its two appends applied and
no capacity error was raised before the first append. -/
theorem C8_counterexample :
    ((mintScalars (Graph.new 10 false) bigN).add_edge (.int 0) (.int (bigN : Int)) 0).1 =
        .error .indexError ∧
    ((mintScalars (Graph.new 10 false) bigN).add_edge
        (.int 0) (.int (bigN : Int)) 0).2.adj 0 = [((bigN : Nat), (0 : Int))] ∧
    (mintScalars (Graph.new 10 false) bigN).adj 0 = [] ∧
    ((mintScalars (Graph.new 10 false) bigN).add_edge
        (.int 0) (.int (bigN : Int)) 0).2.adj bigN = [] := by
  have hg := mintScalars_spec 10 false bigN
  have hne : (bigN : Nat) ≠ 0 := by
    unfold bigN
    omega
  have h0 : (0 : Nat) < bigN := by
    unfold bigN
    omega
  have hbb : ¬ (bigN : Nat) < bigN := by omega
  have hf : findId (scalarList bigN) ((0 : Int), 0, 0) = some 0 := by
    have := findId_scalarList bigN 0
    rw [if_pos h0] at this
    exact_mod_cast this
  have hu : (⟨10, false, fun _ => [], ⟨scalarList bigN⟩⟩ : Graph).h.hash (.int 0) =
      (.ok 0, ⟨scalarList bigN⟩) :=
    Hash.hash_found ⟨scalarList bigN⟩ (.int 0) ((0 : Int), 0, 0) 0 rfl hf
  have hv : Hash.hash ⟨scalarList bigN⟩ (.int (bigN : Int)) =
      (.ok bigN, ⟨scalarList (bigN + 1)⟩) := hash_scalar_fresh bigN
  have hspec := Graph.add_edge_secondOOB_spec
    (⟨10, false, fun _ => [], ⟨scalarList bigN⟩⟩ : Graph)
    (.int 0) (.int (bigN : Int)) 0 0 bigN ⟨scalarList bigN⟩ ⟨scalarList (bigN + 1)⟩
    hu hv h0 hbb rfl
  rw [hg, hspec]
  refine ⟨rfl, ?_, rfl, ?_⟩
  · show upd (fun _ => ([] : List (Nat × Int))) 0
        ((fun _ => ([] : List (Nat × Int))) 0 ++ [(bigN, 0)]) 0 = [((bigN : Nat), (0 : Int))]
    rw [upd_same]
    rfl
  · show upd (fun _ => ([] : List (Nat × Int))) 0
        ((fun _ => ([] : List (Nat × Int))) 0 ++ [(bigN, 0)]) bigN = []
    rw [upd_other _ _ _ _ hne]

/-- C8 (amended): edge insertion with resolvable keys either completes all of
its appends (both ids below the 5,000,000-entry array), or raises an
IndexError with no append applied (first id out of bounds), or — undirected
with only the second id out of bounds — raises an IndexError with exactly the
first of the two appends applied; no capacity error is raised in any case. -/
theorem C8_insertion_atomicity (g : Graph) (u v : PyKey) (w : Int)
    (uh vh : Nat) (h1 h2 : Hash)
    (hu : g.h.hash u = (.ok uh, h1)) (hv : h1.hash v = (.ok vh, h2)) :
    (uh < bigN → (g.is_directed = true ∨ vh < bigN) → (g.add_edge u v w).1 = .ok ()) ∧
    (¬ uh < bigN → (g.add_edge u v w).1 = .error .indexError ∧
      (g.add_edge u v w).2.adj = g.adj) ∧
    (g.is_directed = false → uh < bigN → ¬ vh < bigN →
      (g.add_edge u v w).1 = .error .indexError ∧
      (g.add_edge u v w).2.adj = upd g.adj uh (g.adj uh ++ [(vh, w)])) := by
  refine ⟨?_, ?_, ?_⟩
  · intro huh hor
    cases hdd : g.is_directed with
    | true =>
      rw [Graph.add_edge_directed_spec g u v w uh vh h1 h2 hu hv huh hdd]
    | false =>
      rcases hor with hdt | hvh
      · rw [hdd] at hdt
        cases hdt
      · rw [Graph.add_edge_undirected_spec g u v w uh vh h1 h2 hu hv huh hvh hdd]
  · intro hoob
    rw [Graph.add_edge_firstOOB_spec g u v w uh vh h1 h2 hu hv hoob]
    exact ⟨rfl, rfl⟩
  · intro hdd huh hvh
    rw [Graph.add_edge_secondOOB_spec g u v w uh vh h1 h2 hu hv huh hvh hdd]
    exact ⟨rfl, rfl⟩

theorem C8_witness :
    ((0 : Nat) < bigN → ((Graph.new 5 false).is_directed = true ∨ (1 : Nat) < bigN) →
      ((Graph.new 5 false).add_edge (.int 0) (.int 1) 0).1 = .ok ()) ∧
    (¬ (0 : Nat) < bigN →
      ((Graph.new 5 false).add_edge (.int 0) (.int 1) 0).1 = .error .indexError ∧
      ((Graph.new 5 false).add_edge (.int 0) (.int 1) 0).2.adj = (Graph.new 5 false).adj) ∧
    ((Graph.new 5 false).is_directed = false → (0 : Nat) < bigN → ¬ (1 : Nat) < bigN →
      ((Graph.new 5 false).add_edge (.int 0) (.int 1) 0).1 = .error .indexError ∧
      ((Graph.new 5 false).add_edge (.int 0) (.int 1) 0).2.adj =
        upd (Graph.new 5 false).adj 0 ((Graph.new 5 false).adj 0 ++ [(1, 0)])) ∧
    ((Graph.new 5 false).add_edge (.int 0) (.int 1) 0).1 = .ok () :=
  have hmain := C8_insertion_atomicity (Graph.new 5 false) (.int 0) (.int 1) 0 0 1
    ⟨[((0, 0, 0), 0)]⟩ ⟨[((0, 0, 0), 0), ((1, 0, 0), 1)]⟩ (by decide) (by decide)
  ⟨hmain.1, hmain.2.1, hmain.2.2, hmain.1 (by decide) (Or.inr (by decide))⟩

/-- Unfolding equation of add_edge when resolving the first endpoint raises. -/
theorem Graph.add_edge_hashU_error (g : Graph) (u v : PyKey) (w : Int) (e : PyErr)
    (h1 : Hash) (hu : g.h.hash u = (.error e, h1)) :
    g.add_edge u v w = (.error e, g.setH h1) := by
  unfold Graph.add_edge
  rw [hu]

/-- Unfolding equation of add_edge when resolving the second endpoint raises. -/
theorem Graph.add_edge_hashV_error (g : Graph) (u v : PyKey) (w : Int) (uh : Nat)
    (e : PyErr) (h1 h2 : Hash)
    (hu : g.h.hash u = (.ok uh, h1)) (hv : h1.hash v = (.error e, h2)) :
    g.add_edge u v w = (.error e, g.setH h2) := by
  unfold Graph.add_edge
  rw [hu]
  show (match h1.hash v with
    | (.error e, h2) => ((.error e : Except PyErr Unit), g.setH h2)
    | (.ok vh, h2) => (g.setH h2).add_edge_internal uh vh w) = (.error e, g.setH h2)
  rw [hv]

/-- Unfolding equation of add_edge when both endpoints resolve. -/
theorem Graph.add_edge_ok_eq (g : Graph) (u v : PyKey) (w : Int) (uh vh : Nat)
    (h1 h2 : Hash)
    (hu : g.h.hash u = (.ok uh, h1)) (hv : h1.hash v = (.ok vh, h2)) :
    g.add_edge u v w = (g.setH h2).add_edge_internal uh vh w := by
  unfold Graph.add_edge
  rw [hu]
  show (match h1.hash v with
    | (.error e, h2) => ((.error e : Except PyErr Unit), g.setH h2)
    | (.ok vh, h2) => (g.setH h2).add_edge_internal uh vh w) =
    (g.setH h2).add_edge_internal uh vh w
  rw [hv]

/-- Replace only the stored capacity argument n of a graph. -/
def Graph.setN (g : Graph) (m : Nat) : Graph := ⟨m, g.is_directed, g.adj, g.h⟩

theorem Graph.wu_setN (g : Graph) (m : Nat) (u v : Nat) (w : Int) :
    (g.setN m).add_edge_weighted_undirected u v w =
      ((g.add_edge_weighted_undirected u v w).1,
        (g.add_edge_weighted_undirected u v w).2.setN m) := by
  unfold Graph.add_edge_weighted_undirected
  by_cases hu : u < bigN
  · rw [if_pos hu, if_pos hu]
    rfl
  · rw [if_neg hu, if_neg hu]

theorem Graph.internal_setN (g : Graph) (m : Nat) (u v : Nat) (w : Int) :
    (g.setN m).add_edge_internal u v w =
      ((g.add_edge_internal u v w).1, (g.add_edge_internal u v w).2.setN m) := by
  unfold Graph.add_edge_internal
  rw [Graph.wu_setN]
  rcases hw : g.add_edge_weighted_undirected u v w with ⟨r, g1⟩
  cases r with
  | error e => rfl
  | ok x =>
    show (if g1.is_directed then ((.ok () : Except PyErr Unit), g1.setN m)
        else (g1.setN m).add_edge_weighted_undirected v u w) =
      ((if g1.is_directed then ((.ok () : Except PyErr Unit), g1)
        else g1.add_edge_weighted_undirected v u w).1,
        (if g1.is_directed then ((.ok () : Except PyErr Unit), g1)
          else g1.add_edge_weighted_undirected v u w).2.setN m)
    cases hdd : g1.is_directed with
    | true => rfl
    | false => exact Graph.wu_setN g1 m v u w

theorem Graph.add_edge_setN (g : Graph) (m : Nat) (u v : PyKey) (w : Int) :
    (g.setN m).add_edge u v w =
      ((g.add_edge u v w).1, (g.add_edge u v w).2.setN m) := by
  rcases hu : g.h.hash u with ⟨ru, h1⟩
  cases ru with
  | error e =>
    rw [Graph.add_edge_hashU_error g u v w e h1 hu,
      Graph.add_edge_hashU_error (g.setN m) u v w e h1 hu]
    rfl
  | ok uh =>
    rcases hv : h1.hash v with ⟨rv, h2⟩
    cases rv with
    | error e =>
      rw [Graph.add_edge_hashV_error g u v w uh e h1 h2 hu hv,
        Graph.add_edge_hashV_error (g.setN m) u v w uh e h1 h2 hu hv]
      rfl
    | ok vh =>
      rw [Graph.add_edge_ok_eq g u v w uh vh h1 h2 hu hv,
        Graph.add_edge_ok_eq (g.setN m) u v w uh vh h1 h2 hu hv]
      exact Graph.internal_setN (g.setH h2) m uh vh w

/-- Replace only the stored capacity argument inside the graph of a BFS. -/
def BFS.setN (b : BFS) (m : Nat) : BFS :=
  ⟨b.g.setN m, b.min_dist_from_source, b.visited⟩

theorem BFS.run_setN (b : BFS) (m : Nat) (s : PyKey) :
    (b.setN m).run s = ((b.run s).1, (b.run s).2.setN m) := by
  rcases hs : b.g.h.hash s with ⟨r, h1⟩
  cases r with
  | error e =>
    rw [BFS.run_eq_error b s e h1 hs, BFS.run_eq_error (b.setN m) s e h1 hs]
    rfl
  | ok sId =>
    rw [BFS.run_eq_internal b s sId h1 hs, BFS.run_eq_internal (b.setN m) s sId h1 hs]
    by_cases hb : sId < bigN
    · rw [BFS.run_internal_eq (b.setH h1) sId hb, BFS.run_internal_eq ((b.setN m).setH h1) sId hb]
      have hrl : runLoop ((b.setN m).setH h1).g runFuel [sId]
          (upd ((b.setN m).setH h1).min_dist_from_source sId 0)
          (upd ((b.setN m).setH h1).visited sId true) =
        runLoop (b.setH h1).g runFuel [sId]
          (upd (b.setH h1).min_dist_from_source sId 0)
          (upd (b.setH h1).visited sId true) :=
        runLoop_fst_eq ((b.setN m).setH h1).g (b.setH h1).g (fun i => rfl) runFuel [sId] _ _
      rw [hrl]
      rfl
    · rw [BFS.run_internal_oob (b.setH h1) sId hb,
        BFS.run_internal_oob ((b.setN m).setH h1) sId hb]
      rfl

/-- Unfolding equations of min_dist and is_visited. -/
theorem BFS.min_dist_err (b : BFS) (k : PyKey) (e : PyErr) (h1 : Hash)
    (hk : b.g.h.hash k = (.error e, h1)) : b.min_dist k = (.error e, b.setH h1) := by
  unfold BFS.min_dist
  rw [hk]

theorem BFS.min_dist_ok (b : BFS) (k : PyKey) (t : Nat) (h1 : Hash)
    (hk : b.g.h.hash k = (.ok t, h1)) (ht : t < bigN) :
    b.min_dist k = (.ok (b.min_dist_from_source t), b.setH h1) := by
  unfold BFS.min_dist
  rw [hk]
  show (if t < bigN then ((Except.ok (b.min_dist_from_source t) : Except PyErr Int), b.setH h1)
    else (Except.error PyErr.indexError, b.setH h1)) = _
  rw [if_pos ht]

theorem BFS.min_dist_oob (b : BFS) (k : PyKey) (t : Nat) (h1 : Hash)
    (hk : b.g.h.hash k = (.ok t, h1)) (ht : ¬ t < bigN) :
    b.min_dist k = (.error .indexError, b.setH h1) := by
  unfold BFS.min_dist
  rw [hk]
  show (if t < bigN then ((Except.ok (b.min_dist_from_source t) : Except PyErr Int), b.setH h1)
    else (Except.error PyErr.indexError, b.setH h1)) = _
  rw [if_neg ht]

theorem BFS.is_visited_err (b : BFS) (k : PyKey) (e : PyErr) (h1 : Hash)
    (hk : b.g.h.hash k = (.error e, h1)) : b.is_visited k = (.error e, b.setH h1) := by
  unfold BFS.is_visited
  rw [hk]

theorem BFS.is_visited_ok (b : BFS) (k : PyKey) (t : Nat) (h1 : Hash)
    (hk : b.g.h.hash k = (.ok t, h1)) (ht : t < bigN) :
    b.is_visited k = (.ok (b.visited t), b.setH h1) := by
  unfold BFS.is_visited
  rw [hk]
  show (if t < bigN then ((Except.ok (b.visited t) : Except PyErr Bool), b.setH h1)
    else (Except.error PyErr.indexError, b.setH h1)) = _
  rw [if_pos ht]

theorem BFS.is_visited_oob (b : BFS) (k : PyKey) (t : Nat) (h1 : Hash)
    (hk : b.g.h.hash k = (.ok t, h1)) (ht : ¬ t < bigN) :
    b.is_visited k = (.error .indexError, b.setH h1) := by
  unfold BFS.is_visited
  rw [hk]
  show (if t < bigN then ((Except.ok (b.visited t) : Except PyErr Bool), b.setH h1)
    else (Except.error PyErr.indexError, b.setH h1)) = _
  rw [if_neg ht]

theorem BFS.min_dist_setN (b : BFS) (m : Nat) (k : PyKey) :
    (b.setN m).min_dist k = ((b.min_dist k).1, (b.min_dist k).2.setN m) := by
  rcases hk : b.g.h.hash k with ⟨r, h1⟩
  cases r with
  | error e =>
    rw [BFS.min_dist_err b k e h1 hk, BFS.min_dist_err (b.setN m) k e h1 hk]
    rfl
  | ok t =>
    by_cases ht : t < bigN
    · rw [BFS.min_dist_ok b k t h1 hk ht, BFS.min_dist_ok (b.setN m) k t h1 hk ht]
      rfl
    · rw [BFS.min_dist_oob b k t h1 hk ht, BFS.min_dist_oob (b.setN m) k t h1 hk ht]
      rfl

theorem BFS.is_visited_setN (b : BFS) (m : Nat) (k : PyKey) :
    (b.setN m).is_visited k = ((b.is_visited k).1, (b.is_visited k).2.setN m) := by
  rcases hk : b.g.h.hash k with ⟨r, h1⟩
  cases r with
  | error e =>
    rw [BFS.is_visited_err b k e h1 hk, BFS.is_visited_err (b.setN m) k e h1 hk]
    rfl
  | ok t =>
    by_cases ht : t < bigN
    · rw [BFS.is_visited_ok b k t h1 hk ht, BFS.is_visited_ok (b.setN m) k t h1 hk ht]
      rfl
    · rw [BFS.is_visited_oob b k t h1 hk ht, BFS.is_visited_oob (b.setN m) k t h1 hk ht]
      rfl

/-- One call of the public API against a graph with a BFS over it. -/
inductive Op where
  | addEdge (u v : PyKey) (w : Int)
  | runBfs (s : PyKey)
  | minDist (k : PyKey)
  | isVisited (k : PyKey)
  | clearBfs

/-- Observable outcome of one call. -/
inductive Out where
  | ok : Out
  | okInt : Int → Out
  | okBool : Bool → Out
  | err : PyErr → Out
deriving DecidableEq

/-- Interpreter for one call: its observable outcome and the next state. -/
def stepOp (b : BFS) : Op → Out × BFS
  | .addEdge u v w =>
    match b.g.add_edge u v w with
    | (.ok _, g1) => (.ok, ⟨g1, b.min_dist_from_source, b.visited⟩)
    | (.error e, g1) => (.err e, ⟨g1, b.min_dist_from_source, b.visited⟩)
  | .runBfs s =>
    match b.run s with
    | (.ok _, b1) => (.ok, b1)
    | (.error e, b1) => (.err e, b1)
  | .minDist k =>
    match b.min_dist k with
    | (.ok i, b1) => (.okInt i, b1)
    | (.error e, b1) => (.err e, b1)
  | .isVisited k =>
    match b.is_visited k with
    | (.ok v, b1) => (.okBool v, b1)
    | (.error e, b1) => (.err e, b1)
  | .clearBfs => (.ok, b.clear)

/-- Observable trace of a sequence of calls. -/
def runOps : BFS → List Op → List Out
  | _, [] => []
  | b, op :: rest =>
    match stepOp b op with
    | (o, b1) => o :: runOps b1 rest

theorem stepOp_setN (b : BFS) (m : Nat) (op : Op) :
    stepOp (b.setN m) op = ((stepOp b op).1, (stepOp b op).2.setN m) := by
  cases op with
  | addEdge u v w =>
    simp only [stepOp]
    rw [show (BFS.setN b m).g = b.g.setN m from rfl, Graph.add_edge_setN b.g m u v w]
    rcases hr : b.g.add_edge u v w with ⟨r, g1⟩
    cases r with
    | error e => rfl
    | ok x => rfl
  | runBfs s =>
    simp only [stepOp]
    rw [BFS.run_setN b m s]
    rcases hr : b.run s with ⟨r, b1⟩
    cases r with
    | error e => rfl
    | ok x => rfl
  | minDist k =>
    simp only [stepOp]
    rw [BFS.min_dist_setN b m k]
    rcases hr : b.min_dist k with ⟨r, b1⟩
    cases r with
    | error e => rfl
    | ok x => rfl
  | isVisited k =>
    simp only [stepOp]
    rw [BFS.is_visited_setN b m k]
    rcases hr : b.is_visited k with ⟨r, b1⟩
    cases r with
    | error e => rfl
    | ok x => rfl
  | clearBfs => rfl

theorem runOps_setN (ops : List Op) :
    ∀ (b : BFS) (m : Nat), runOps (b.setN m) ops = runOps b ops := by
  induction ops with
  | nil =>
    intro b m
    rfl
  | cons op rest ih =>
    intro b m
    show (match stepOp (b.setN m) op with
      | (o, b1) => o :: runOps b1 rest) =
      (match stepOp b op with
      | (o, b1) => o :: runOps b1 rest)
    rw [stepOp_setN b m op]
    rcases hs : stepOp b op with ⟨o, b1⟩
    show o :: runOps (b1.setN m) rest = o :: runOps b1 rest
    rw [ih b1 m]

/-- C10: the constructor argument n has no observable effect: any identical
sequence of addEdge, run, minDist, isVisited (and clear) calls against stores
built with capacities n1 and n2 but the same directedness produces identical
observable outcomes, including identical errors. -/
theorem C10_capacity_argument_unobservable (n1 n2 : Nat) (d : Bool) (ops : List Op) :
    runOps (BFS.new (Graph.new n1 d)) ops = runOps (BFS.new (Graph.new n2 d)) ops := by
  have h : BFS.new (Graph.new n1 d) = (BFS.new (Graph.new n2 d)).setN n1 := rfl
  rw [h, runOps_setN]
